import Mathlib

/-!
Shallow embedding of the word-packed bit vector `Bitv` and the growable
integer set `BitvSet` from `src/libcollections/bitv.rs`, plus theorems
checking the natural-language specification against it.

Machine words (`uint`, width `W = 64`) are modelled as `Nat`; every
operation that relies on fixed-width wrap-around applies an explicit
mask, such as `complW` for Rust's `!w`.  Fallible code (the
`assert_eq!` in `Bitv::process`) returns `Option`.  Side-effecting
visitor closures (`|&uint| -> bool`) are modelled as pure predicates,
and the enumeration functions additionally return the list of values
passed to the visitor, in call order, so that visiting order and early
termination are observable.
-/

/-- The word width `uint::BITS` of the platform (64-bit). -/
def W : Nat := 64

/-- The all-ones machine word `!0u`. -/
def allOnes : Nat := 2 ^ W - 1

/-- Rust's bitwise complement `!x` on a `W`-bit word. -/
def complW (x : Nat) : Nat := allOnes ^^^ x

/-- `Bitv`: a vector of machine words `storage` plus the number `nbits`
of valid bits. -/
structure Bitv where
  storage : List Nat
  nbits : Nat
deriving Repr, DecidableEq

/-- Helper for the `MaskWords` iterator: pairs every word of the list
with its offset (starting at `i`) and masks the last word with `mask`. -/
def maskWordsAux (mask : Nat) : Nat → List Nat → List (Nat × Nat)
  | _, [] => []
  | i, [w] => [(i, w &&& mask)]
  | i, w :: w2 :: ws => (i, w) :: maskWordsAux mask (i + 1) (w2 :: ws)

/-- The mask applied to the final word by `MaskWords`:
`(1 << (nbits % W)) - 1`, or `!0` when `nbits` is a multiple of `W`. -/
def Bitv.lastWordMask (bv : Bitv) : Nat :=
  if bv.nbits % W > 0 then (1 <<< (bv.nbits % W)) - 1 else allOnes

/-- `Bitv::mask_words(start)`: the `(offset, word)` pairs over
`storage[start..]` (with `start` clamped to the word count), the last
yielded word masked by `lastWordMask`. -/
def Bitv.mask_words (bv : Bitv) (start : Nat) : List (Nat × Nat) :=
  let s := min start bv.storage.length
  maskWordsAux bv.lastWordMask s (bv.storage.drop s)

/-- `Bitv::process(other, op)`: `assert_eq!(self.storage.len(), other.storage.len())`
is modelled by returning `none` on mismatch.  Otherwise each word of
`self` is combined with the corresponding masked word of `other`;
returns the updated vector and whether any word changed. -/
def Bitv.process (bv other : Bitv) (op : Nat → Nat → Nat) : Option (Bitv × Bool) :=
  if bv.storage.length = other.storage.length then
    let res := (bv.storage.zip ((other.mask_words 0).map Prod.snd)).foldl
      (fun acc ab =>
        let w := op ab.1 ab.2
        (acc.1 ++ [w], acc.2 || decide (ab.1 ≠ w)))
      ([], false)
    some ({ storage := res.1, nbits := bv.nbits }, res.2)
  else none

/-- `Bitv::new(nbits, init)`: `ceil(nbits/W)` words, all-zero or all-one. -/
def Bitv.new (nbits : Nat) (init : Bool) : Bitv :=
  { storage := List.replicate ((nbits + W - 1) / W) (if init then allOnes else 0),
    nbits := nbits }

/-- `Bitv::union`. -/
def Bitv.union (bv other : Bitv) : Option (Bitv × Bool) :=
  bv.process other (fun w1 w2 => w1 ||| w2)

/-- `Bitv::intersect`. -/
def Bitv.intersect (bv other : Bitv) : Option (Bitv × Bool) :=
  bv.process other (fun w1 w2 => w1 &&& w2)

/-- `Bitv::assign`. -/
def Bitv.assign (bv other : Bitv) : Option (Bitv × Bool) :=
  bv.process other (fun _ w => w)

/-- `Bitv::difference`: `w1 & !w2` per word pair. -/
def Bitv.difference (bv other : Bitv) : Option (Bitv × Bool) :=
  bv.process other (fun w1 w2 => w1 &&& complW w2)

/-- `Bitv::get(i)`: bit `i % W` of word `i / W`
(`self.storage.get(w) & (1 << b) != 0`).  The source asserts
`i < nbits`; theorems that depend on in-range behaviour carry that
bound as a hypothesis. -/
def Bitv.get (bv : Bitv) (i : Nat) : Bool :=
  decide (bv.storage.getD (i / W) 0 &&& (1 <<< (i % W)) ≠ 0)

/-- `Bitv::set(i, x)`: or in, or mask out, the flag `1 << (i % W)` in
word `i / W`.  (As with `get`, the `i < nbits` assertion becomes a
hypothesis where it matters.) -/
def Bitv.set (bv : Bitv) (i : Nat) (x : Bool) : Bitv :=
  let w := i / W
  let flag := 1 <<< (i % W)
  let old := bv.storage.getD w 0
  { bv with storage := bv.storage.set w (if x then old ||| flag else old &&& complW flag) }

/-- `Bitv::clear`: every word becomes `0` (no masking). -/
def Bitv.clear (bv : Bitv) : Bitv :=
  { bv with storage := bv.storage.map (fun _ => 0) }

/-- `Bitv::set_all`: every word becomes `!0` (no masking). -/
def Bitv.set_all (bv : Bitv) : Bitv :=
  { bv with storage := bv.storage.map (fun _ => allOnes) }

/-- `Bitv::negate`: every word is complemented (no masking). -/
def Bitv.negate (bv : Bitv) : Bitv :=
  { bv with storage := bv.storage.map complW }

/-- `Bitv::all`: the stateful `last_word` fold means: every masked word
but the last equals `!0`, and the last masked word (or `!0` when there
is none) equals `(1 << (nbits % W)) - 1` or `!0`. -/
def Bitv.all (bv : Bitv) : Bool :=
  let ms := (bv.mask_words 0).map Prod.snd
  ms.dropLast.all (fun w => w == allOnes) &&
    ((ms.getLastD allOnes == (1 <<< (bv.nbits % W)) - 1) ||
      (ms.getLastD allOnes == allOnes))

/-- `Bitv::none`: every masked word is zero. -/
def Bitv.none (bv : Bitv) : Bool :=
  (bv.mask_words 0).all (fun p => p.2 == 0)

/-- `Bitv::any`. -/
def Bitv.any (bv : Bitv) : Bool :=
  !bv.none

/-- `Bitv::to_bytes`: `ceil(nbits/8)` bytes, bit `i` of the vector at
bit `7 - i % 8` of byte `i / 8`, positions past `nbits` zero-filled. -/
def Bitv.to_bytes (bv : Bitv) : List Nat :=
  let bit := fun (byte b : Nat) =>
    let offset := byte * 8 + b
    if offset ≥ bv.nbits then 0
    else (if bv.get offset then 1 else 0) <<< (7 - b)
  let len := bv.nbits / 8 + if bv.nbits % 8 == 0 then 0 else 1
  (List.range len).map (fun i =>
    bit i 0 ||| bit i 1 ||| bit i 2 ||| bit i 3 |||
      bit i 4 ||| bit i 5 ||| bit i 6 ||| bit i 7)

/-- `bitv::from_fn(len, f)`: sets bit `i` to `f i` on an all-false vector. -/
def from_fn (len : Nat) (f : Nat → Bool) : Bitv :=
  (List.range len).foldl (fun bv i => bv.set i (f i)) (Bitv.new len false)

/-- `bitv::from_bytes`: length `8 * bytes.len()`, MSB of each byte first. -/
def from_bytes (bytes : List Nat) : Bitv :=
  from_fn (bytes.length * 8) (fun i =>
    decide ((bytes.getD (i / 8) 0 >>> (7 - i % 8)) &&& 1 = 1))

/-- `bitv::from_bools`. -/
def from_bools (bools : List Bool) : Bitv :=
  from_fn bools.length (fun i => bools.getD i false)

/-- `PartialEq for Bitv`: lengths equal and all masked word pairs equal. -/
def Bitv.beq (a b : Bitv) : Bool :=
  a.nbits == b.nbits &&
    ((a.mask_words 0).zip (b.mask_words 0)).all (fun p => p.1.2 == p.2.2)

/-- The `Bits` iterator over a `Bitv`: a window `[next_idx, end_idx)`. -/
structure Bits where
  bitv : Bitv
  next_idx : Nat
  end_idx : Nat

/-- `Bitv::iter`. -/
def Bitv.iter (bv : Bitv) : Bits :=
  { bitv := bv, next_idx := 0, end_idx := bv.nbits }

/-- `Iterator::next for Bits`: yields the front bit and narrows the window. -/
def Bits.next (b : Bits) : Option Bool × Bits :=
  if b.next_idx ≠ b.end_idx then
    (some (b.bitv.get b.next_idx), { b with next_idx := b.next_idx + 1 })
  else (Option.none, b)

/-- `DoubleEndedIterator::next_back for Bits`: yields the back bit. -/
def Bits.next_back (b : Bits) : Option Bool × Bits :=
  if b.next_idx ≠ b.end_idx then
    (some (b.bitv.get (b.end_idx - 1)), { b with end_idx := b.end_idx - 1 })
  else (Option.none, b)

/-- `RandomAccessIterator::indexable for Bits`. -/
def Bits.indexable (b : Bits) : Nat := b.end_idx - b.next_idx

/-- `RandomAccessIterator::idx for Bits`: note the source reads
`self.bitv.get(index)`, an absolute index, not an offset from `next_idx`. -/
def Bits.idx (b : Bits) (index : Nat) : Option Bool :=
  if index ≥ b.indexable then Option.none else some (b.bitv.get index)

/-- Consume `k` elements from the front of a `Bits` iterator. -/
def Bits.advanceFront : Nat → Bits → Bits
  | 0, b => b
  | k + 1, b => Bits.advanceFront k (b.next).2

/-- Consume `m` elements from the back of a `Bits` iterator. -/
def Bits.advanceBack : Nat → Bits → Bits
  | 0, b => b
  | m + 1, b => Bits.advanceBack m (b.next_back).2

/-- `BitvSet`: a newtype around a backing `Bitv`. -/
structure BitvSet where
  bitv : Bitv
deriving Repr, DecidableEq

/-- `BitvSet::new`: wraps `Bitv::new(0, false)`. -/
def BitvSet.new : BitvSet := ⟨Bitv.new 0 false⟩

/-- `BitvSet::from_bitv`. -/
def BitvSet.from_bitv (bv : Bitv) : BitvSet := ⟨bv⟩

/-- `BitvSet::capacity`: `storage.len() * W`. -/
def BitvSet.capacity (s : BitvSet) : Nat := s.bitv.storage.length * W

/-- `BitvSet::grow(size)`: extend the storage with zero words until it
has `ceil(size/W)` words; never truncates. -/
def BitvSet.grow (s : BitvSet) (size : Nat) : BitvSet :=
  let old_size := s.bitv.storage.length
  let size := (size + W - 1) / W
  if old_size < size then
    ⟨{ s.bitv with storage := s.bitv.storage ++ List.replicate (size - old_size) 0 }⟩
  else s

/-- `BitvSet::other_op(other, f)`: grow to `other.capacity()`, then for
every masked word `(i, w)` of `other` store `f(storage[i], w)` back at
index `i`.  `nbits` is untouched. -/
def BitvSet.other_op (s other : BitvSet) (f : Nat → Nat → Nat) : BitvSet :=
  let s := s.grow other.capacity
  ⟨{ s.bitv with
      storage := (other.bitv.mask_words 0).foldl
        (fun st iw => st.set iw.1 (f (st.getD iw.1 0) iw.2)) s.bitv.storage }⟩

/-- `BitvSet::shrink_to_fit`: drop the run of trailing all-zero words
(keeping at least word count 1 as the truncation target — `truncate`
never extends), and set `nbits` to the target word count times `W`. -/
def BitvSet.shrink_to_fit (s : BitvSet) : BitvSet :=
  let stor := s.bitv.storage
  let old_len := stor.length
  let n := (stor.reverse.takeWhile (fun w => w == 0)).length
  let trunc_len := max (old_len - n) 1
  ⟨{ storage := stor.take trunc_len, nbits := trunc_len * W }⟩

/-- `BitvSet::union_with`. -/
def BitvSet.union_with (s other : BitvSet) : BitvSet :=
  s.other_op other (fun w1 w2 => w1 ||| w2)

/-- `BitvSet::intersect_with`. -/
def BitvSet.intersect_with (s other : BitvSet) : BitvSet :=
  s.other_op other (fun w1 w2 => w1 &&& w2)

/-- `BitvSet::difference_with`. -/
def BitvSet.difference_with (s other : BitvSet) : BitvSet :=
  s.other_op other (fun w1 w2 => w1 &&& complW w2)

/-- `BitvSet::symmetric_difference_with`. -/
def BitvSet.symmetric_difference_with (s other : BitvSet) : BitvSet :=
  s.other_op other (fun w1 w2 => w1 ^^^ w2)

/-- `Set::contains for BitvSet`: `value < nbits && get(value)`. -/
def BitvSet.contains (s : BitvSet) (value : Nat) : Bool :=
  decide (value < s.bitv.nbits) && s.bitv.get value

/-- `MutableSet::insert for BitvSet`: returns whether the value was
newly added, along with the updated set. -/
def BitvSet.insert (s : BitvSet) (value : Nat) : Bool × BitvSet :=
  if s.contains value then (false, s)
  else
    let s := if value ≥ s.capacity then s.grow (max (value + 1) (s.capacity * 2)) else s
    let bv := s.bitv
    let bv :=
      if value ≥ bv.nbits then
        let old_rem := bv.nbits % W
        let bv :=
          if old_rem ≠ 0 then
            let old_last_word := (bv.nbits + W - 1) / W - 1
            { bv with storage := (bv.storage.set old_last_word
                (bv.storage.getD old_last_word 0 &&& ((1 <<< old_rem) - 1))) }
          else bv
        { bv with nbits := value + 1 }
      else bv
    (true, ⟨bv.set value true⟩)

/-- `MutableSet::remove for BitvSet`. -/
def BitvSet.remove (s : BitvSet) (value : Nat) : Bool × BitvSet :=
  if !s.contains value then (false, s)
  else (true, ⟨s.bitv.set value false⟩)

/-- `BitvSet::commons`: zip of the two masked word sequences, with the
offset scaled to a bit position. -/
def BitvSet.commons (s other : BitvSet) : List (Nat × Nat × Nat) :=
  ((s.bitv.mask_words 0).zip (other.bitv.mask_words 0)).map
    (fun p => (p.1.1 * W, p.1.2, p.2.2))

/-- `BitvSet::outliers`: the masked words of the larger-capacity
operand past the smaller one; the `Bool` is `true` when they come from
`self`. -/
def BitvSet.outliers (s other : BitvSet) : List (Bool × Nat × Nat) :=
  let slen := s.capacity / W
  let olen := other.capacity / W
  if olen < slen then (s.bitv.mask_words olen).map (fun p => (true, p.1 * W, p.2))
  else (other.bitv.mask_words slen).map (fun p => (false, p.1 * W, p.2))

/-- Run a visitor over a list of values in order, stopping at the first
value it rejects; returns the overall result (`false` iff some value
was rejected) and the values actually visited. -/
def visitSeq (p : Nat → Bool) : List Nat → Bool × List Nat
  | [] => (true, [])
  | x :: xs =>
    if p x then ((visitSeq p xs).1, x :: (visitSeq p xs).2)
    else (false, [x])

/-- The positions `base + i` of the set bits `i < W` of a word, ascending. -/
def wordBits (base bits : Nat) : List Nat :=
  (List.range W).filterMap
    (fun i => if bits &&& (1 <<< i) ≠ 0 then some (base + i) else Option.none)

/-- `bitv::iterate_bits(base, bits, f)`: visit `base + i` for every set
bit `i` of `bits` in ascending order, stopping early when `f` returns
`false`; the visited values are also returned. -/
def iterate_bits (base bits : Nat) (p : Nat → Bool) : Bool × List Nat :=
  if bits = 0 then (true, [])
  else visitSeq p (wordBits base bits)

/-- Run `iterate_bits` over a list of `(base, word)` pairs in order with
early termination, accumulating the visited values. -/
def visitWords (p : Nat → Bool) : List (Nat × Nat) → Bool × List Nat
  | [] => (true, [])
  | bw :: rest =>
    let r := iterate_bits bw.1 bw.2 p
    if r.1 then ((visitWords p rest).1, r.2 ++ (visitWords p rest).2)
    else (false, r.2)

/-- `BitvSet::intersection(other, f)`: `commons` with `w1 & w2`. -/
def BitvSet.intersection (s other : BitvSet) (p : Nat → Bool) : Bool × List Nat :=
  visitWords p ((s.commons other).map (fun c => (c.1, c.2.1 &&& c.2.2)))

/-- `BitvSet::union(other, f)`: `commons` with `w1 | w2`, then all
outlier words. -/
def BitvSet.union (s other : BitvSet) (p : Nat → Bool) : Bool × List Nat :=
  let c := visitWords p ((s.commons other).map (fun c => (c.1, c.2.1 ||| c.2.2)))
  if c.1 then
    let o := visitWords p ((s.outliers other).map (fun x => (x.2.1, x.2.2)))
    (o.1, c.2 ++ o.2)
  else (false, c.2)

/-- `BitvSet::symmetric_difference(other, f)`: `commons` with `w1 ^ w2`,
then all outlier words. -/
def BitvSet.symmetric_difference (s other : BitvSet) (p : Nat → Bool) : Bool × List Nat :=
  let c := visitWords p ((s.commons other).map (fun c => (c.1, c.2.1 ^^^ c.2.2)))
  if c.1 then
    let o := visitWords p ((s.outliers other).map (fun x => (x.2.1, x.2.2)))
    (o.1, c.2 ++ o.2)
  else (false, c.2)

/-- `BitvSet::difference(other, f)`: `commons` with `w1 & !w2`, then the
outlier words, skipped entirely when they belong to `other`. -/
def BitvSet.difference (s other : BitvSet) (p : Nat → Bool) : Bool × List Nat :=
  let c := visitWords p ((s.commons other).map (fun c => (c.1, c.2.1 &&& complW c.2.2)))
  if c.1 then
    let o := visitWords p ((s.outliers other).filterMap
      (fun x => if x.1 then some (x.2.1, x.2.2) else Option.none))
    (o.1, c.2 ++ o.2)
  else (false, c.2)

/-! ## Derived definitions used by the verification

These are stated in terms of the embedded operations above; they give
names to the storage invariants and to closed forms used in theorem
statements. -/

/-- Word `j` of a vector as seen through `mask_words 0`: the final
stored word is masked with `lastWordMask`, earlier words are raw. -/
def Bitv.maskedWord (bv : Bitv) (j : Nat) : Nat :=
  if j + 1 = bv.storage.length then bv.storage.getD j 0 &&& bv.lastWordMask
  else bv.storage.getD j 0

/-- The storage invariant of a `Bitv`: exactly `ceil(nbits/W)` machine
words back the `nbits` logical bits. -/
def Bitv.Inv (bv : Bitv) : Prop :=
  bv.storage.length = (bv.nbits + W - 1) / W

/-- Representation validity of the word list: every stored word fits in
a machine word. -/
def Bitv.WordsWF (bv : Bitv) : Prop :=
  ∀ w ∈ bv.storage, w < 2 ^ W

/-- The weak invariant a `BitvSet` maintains: the nominal bit length
never exceeds the allocated capacity. -/
def BitvSet.CapInv (s : BitvSet) : Prop :=
  s.bitv.nbits ≤ s.capacity

/-- A `BitvSet` is clean when every stored bit at a position at or
beyond the nominal length is zero (no stale don't-care garbage). -/
def BitvSet.Clean (s : BitvSet) : Prop :=
  ∀ v < s.capacity, s.bitv.nbits ≤ v →
    (s.bitv.storage.getD (v / W) 0).testBit (v % W) = false

/-- The fixed-length vector `b1` of the spec's difference example:
`create(3, false)` with bits `{0, 1}` set. -/
def b1ex : Bitv := ((Bitv.new 3 false).set 0 true).set 1 true

/-- The fixed-length vector `b2` of the spec's difference example:
`create(3, false)` with bits `{1, 2}` set. -/
def b2ex : Bitv := ((Bitv.new 3 false).set 1 true).set 2 true

/-- The set `A = {11, 1, 3, 77, 103, 5}` of the spec's intersection
example, built by the same insert sequence as the source's test. -/
def setAex : BitvSet :=
  ((((((BitvSet.new.insert 11).2.insert 1).2.insert 3).2.insert 77).2.insert
    103).2.insert 5).2

/-- The set `B = {2, 11, 77, 5, 3}` of the spec's intersection example. -/
def setBex : BitvSet :=
  (((((BitvSet.new.insert 2).2.insert 11).2.insert 77).2.insert 5).2.insert 3).2

/-- The singleton set `{5}`. -/
def setFive : BitvSet := (BitvSet.new.insert 5).2

/-- A set with stale storage garbage: `union_with` writes word bits into
a set whose nominal length stays `0`, leaving bit `5` set beyond `nbits`. -/
def setDirty : BitvSet := BitvSet.new.union_with setFive

instance (bv : Bitv) : Decidable bv.Inv :=
  inferInstanceAs (Decidable (bv.storage.length = (bv.nbits + W - 1) / W))

instance (bv : Bitv) : Decidable bv.WordsWF :=
  inferInstanceAs (Decidable (∀ w ∈ bv.storage, w < 2 ^ W))

instance (s : BitvSet) : Decidable s.CapInv :=
  inferInstanceAs (Decidable (s.bitv.nbits ≤ s.capacity))

instance (s : BitvSet) : Decidable s.Clean :=
  inferInstanceAs (Decidable (∀ v < s.capacity, s.bitv.nbits ≤ v →
    (s.bitv.storage.getD (v / W) 0).testBit (v % W) = false))

/-- The growth step of `BitvSet::insert`: grow to
`max(value + 1, capacity * 2)` when `value ≥ capacity`.  (A proof-level
restatement of the first conditional of `insert`; `insert_eq_grow_remask_set`
proves it matches.) -/
def BitvSet.grownFor (s : BitvSet) (v : Nat) : BitvSet :=
  if v ≥ s.capacity then s.grow (max (v + 1) (s.capacity * 2)) else s

/-- The re-masking step of `BitvSet::insert`: clear the don't-care bits
of the current final partial word (no-op when `nbits` is word-aligned).
(A proof-level restatement of the masking conditional of `insert`.) -/
def Bitv.remask (bv : Bitv) : Bitv :=
  if bv.nbits % W ≠ 0 then
    { bv with storage := (bv.storage.set ((bv.nbits + W - 1) / W - 1)
        (bv.storage.getD ((bv.nbits + W - 1) / W - 1) 0 &&& ((1 <<< (bv.nbits % W)) - 1))) }
  else bv

/-! ## Basic facts about words and masking -/

theorem W_pos : 0 < W := by decide

theorem allOnes_eq : allOnes = 2 ^ W - 1 := rfl

/-- `x & (1 << i) != 0` is exactly `testBit x i`. -/
theorem land_shift_ne_zero (x i : Nat) :
    decide (x &&& (1 <<< i) ≠ 0) = x.testBit i := by
  rw [Nat.one_shiftLeft, Nat.and_two_pow]
  cases h : x.testBit i
  · simp [h]
  · simp [h, (Nat.pos_pow_of_pos i (by decide) : 0 < 2 ^ i).ne']

/-- `Bitv.get` reads bit `i % W` of word `i / W`. -/
theorem Bitv.get_eq_testBit (bv : Bitv) (i : Nat) :
    bv.get i = (bv.storage.getD (i / W) 0).testBit (i % W) := by
  unfold Bitv.get
  exact land_shift_ne_zero _ _

/-- Rust's `!x` complements exactly the bits below `W`. -/
theorem complW_testBit (x j : Nat) (hj : j < W) :
    (complW x).testBit j = !x.testBit j := by
  unfold complW
  rw [Nat.testBit_xor, allOnes_eq, Nat.testBit_two_pow_sub_one]
  simp [hj]

/-- Above the word width, `!x` has no bits. -/
theorem complW_testBit_ge (x j : Nat) (hj : W ≤ j) :
    (complW x).testBit j = x.testBit j := by
  unfold complW
  rw [Nat.testBit_xor, allOnes_eq, Nat.testBit_two_pow_sub_one]
  simp [Nat.not_lt.mpr hj]

/-! ## The masked-word sequence in closed form -/

theorem maskWordsAux_eq (mask : Nat) : ∀ (l : List Nat) (i : Nat),
    maskWordsAux mask i l =
      (List.range l.length).map
        (fun j => (i + j, if j + 1 = l.length then l.getD j 0 &&& mask else l.getD j 0))
  | [], _ => rfl
  | [w], i => by
    rw [show List.range [w].length = [0] from rfl]
    simp [maskWordsAux]
  | w :: w2 :: ws, i => by
    rw [maskWordsAux, maskWordsAux_eq mask (w2 :: ws) (i + 1)]
    rw [show (w :: w2 :: ws).length = (w2 :: ws).length + 1 from rfl,
      List.range_succ_eq_map, List.map_cons, List.map_map]
    refine congrArg₂ List.cons (by simp) (List.map_congr_left fun j _ => ?_)
    simp only [Function.comp_apply, Nat.succ_eq_add_one, List.getD_cons_succ]
    rw [show i + 1 + j = i + (j + 1) from by omega]
    by_cases h : j + 1 = (w2 :: ws).length
    · rw [if_pos h, if_pos (by omega)]
    · rw [if_neg h, if_neg (by omega)]

/-- `mask_words 0` in closed form. -/
theorem Bitv.mask_words_zero (bv : Bitv) :
    bv.mask_words 0 =
      (List.range bv.storage.length).map (fun j => (j, bv.maskedWord j)) := by
  unfold Bitv.mask_words Bitv.maskedWord
  simp [maskWordsAux_eq]

/-- `mask_words s` for an in-range start, in closed form. -/
theorem Bitv.mask_words_start (bv : Bitv) (s : Nat) (hs : s ≤ bv.storage.length) :
    bv.mask_words s =
      (List.range (bv.storage.length - s)).map
        (fun j => (s + j, bv.maskedWord (s + j))) := by
  unfold Bitv.mask_words Bitv.maskedWord
  simp only [Nat.min_eq_left hs]
  rw [maskWordsAux_eq]
  simp only [List.length_drop]
  refine List.map_congr_left fun j hj => ?_
  rw [List.mem_range] at hj
  have hd : (bv.storage.drop s).getD j 0 = bv.storage.getD (s + j) 0 := by
    simp [List.getD_eq_getElem?_getD, List.getElem?_drop]
  rw [hd]
  by_cases h : s + j + 1 = bv.storage.length
  · rw [if_pos (by omega), if_pos h]
  · rw [if_neg (by omega), if_neg h]

theorem Bitv.mask_words_zero_length (bv : Bitv) :
    (bv.mask_words 0).length = bv.storage.length := by
  rw [bv.mask_words_zero]; simp

/-! ## `process` in closed form -/

theorem procFold (op : Nat → Nat → Nat) :
    ∀ (l : List (Nat × Nat)) (acc : List Nat × Bool),
      (l.foldl (fun acc ab =>
          let w := op ab.1 ab.2
          (acc.1 ++ [w], acc.2 || decide (ab.1 ≠ w))) acc) =
        (acc.1 ++ l.map (fun ab => op ab.1 ab.2),
          acc.2 || l.any (fun ab => decide (ab.1 ≠ op ab.1 ab.2)))
  | [], acc => by simp
  | x :: xs, acc => by
    rw [List.foldl_cons, procFold op xs]
    simp [Bool.or_assoc]

theorem Bitv.process_eq_none (b1 b2 : Bitv) (op : Nat → Nat → Nat)
    (h : b1.storage.length ≠ b2.storage.length) :
    b1.process b2 op = Option.none := by
  unfold Bitv.process
  rw [if_neg h]

theorem Bitv.process_eq_some (b1 b2 : Bitv) (op : Nat → Nat → Nat)
    (h : b1.storage.length = b2.storage.length) :
    b1.process b2 op =
      some ({ storage := (b1.storage.zip ((b2.mask_words 0).map Prod.snd)).map
                (fun ab => op ab.1 ab.2),
              nbits := b1.nbits },
        (b1.storage.zip ((b2.mask_words 0).map Prod.snd)).any
          (fun ab => decide (ab.1 ≠ op ab.1 ab.2))) := by
  unfold Bitv.process
  rw [if_pos h, procFold]
  simp

theorem any_ne_iff (op : Nat → Nat → Nat) : ∀ (l : List (Nat × Nat)),
    (l.any (fun ab => decide (ab.1 ≠ op ab.1 ab.2)) = true) ↔
      l.map (fun ab => op ab.1 ab.2) ≠ l.map Prod.fst
  | [] => by simp
  | x :: xs => by
    simp only [List.any_cons, List.map_cons, Bool.or_eq_true, decide_eq_true_eq,
      any_ne_iff op xs, ne_eq, List.cons.injEq, not_and_or]
    constructor
    · rintro (h | h)
      · exact Or.inl (fun hc => h hc.symm)
      · exact Or.inr h
    · rintro (h | h)
      · exact Or.inl (fun hc => h hc.symm)
      · exact Or.inr h

/-! ## Arithmetic and list helpers -/

theorem le_ceil_mul (x : Nat) : x ≤ (x + W - 1) / W * W := by
  by_contra hlt
  push_neg at hlt
  have hW := W_pos
  have h1 : ((x + W - 1) / W + 1) * W ≤ x + W - 1 := by
    rw [Nat.succ_mul]
    omega
  have h2 := (Nat.le_div_iff_mul_le W_pos).mpr h1
  omega

theorem ceil_mul_self (t : Nat) : (t * W + W - 1) / W = t := by
  have hW := W_pos
  have h1 : t * W + W - 1 = W * t + (W - 1) := by
    rw [Nat.mul_comm t W]
    omega
  rw [h1, Nat.mul_add_div W_pos]
  have h2 : (W - 1) / W = 0 := Nat.div_eq_of_lt (by omega)
  omega

/-- A fold of `List.set` updates leaves the length unchanged. -/
theorem foldl_set_length (g : List Nat → Nat × Nat → Nat) :
    ∀ (l : List (Nat × Nat)) (st : List Nat),
      (l.foldl (fun st iw => st.set iw.1 (g st iw)) st).length = st.length
  | [], _ => rfl
  | x :: xs, st => by
    rw [List.foldl_cons, foldl_set_length g (xs) _, List.length_set]

/-- A fold of `List.set` updates at indices below `k` does not move the
entry at `k`. -/
theorem foldl_set_getD_ne (g : List Nat → Nat × Nat → Nat) :
    ∀ (l : List (Nat × Nat)) (st : List Nat) (k : Nat),
      (∀ iw ∈ l, iw.1 ≠ k) →
      (l.foldl (fun st iw => st.set iw.1 (g st iw)) st).getD k 0 = st.getD k 0
  | [], _, _, _ => rfl
  | x :: xs, st, k, h => by
    rw [List.foldl_cons, foldl_set_getD_ne g xs _ k (fun iw hiw => h iw (by simp [hiw]))]
    rw [List.getD_eq_getElem?_getD, List.getElem?_set_ne (h x (by simp)),
      List.getD_eq_getElem?_getD]

/-! ## Storage-invariant preservation (claim C1) -/

theorem Bitv.new_Inv (n : Nat) (init : Bool) : (Bitv.new n init).Inv := by
  simp [Bitv.new, Bitv.Inv]

theorem Bitv.set_Inv (bv : Bitv) (i : Nat) (x : Bool) (h : bv.Inv) :
    (bv.set i x).Inv := by
  simpa [Bitv.set, Bitv.Inv] using h

theorem Bitv.clear_Inv (bv : Bitv) (h : bv.Inv) : bv.clear.Inv := by
  simpa [Bitv.clear, Bitv.Inv] using h

theorem Bitv.set_all_Inv (bv : Bitv) (h : bv.Inv) : bv.set_all.Inv := by
  simpa [Bitv.set_all, Bitv.Inv] using h

theorem Bitv.negate_Inv (bv : Bitv) (h : bv.Inv) : bv.negate.Inv := by
  simpa [Bitv.negate, Bitv.Inv] using h

theorem Bitv.process_Inv (b1 b2 : Bitv) (op : Nat → Nat → Nat) (b' : Bitv) (c : Bool)
    (h : b1.Inv) (hp : b1.process b2 op = some (b', c)) : b'.Inv := by
  by_cases hl : b1.storage.length = b2.storage.length
  · rw [Bitv.process_eq_some b1 b2 op hl] at hp
    obtain ⟨hb, -⟩ := Prod.mk.injEq .. ▸ Option.some.injEq .. ▸ hp
    have hlen : b'.storage.length = b1.storage.length := by
      rw [← hb]
      simp [List.length_zip, Bitv.mask_words_zero_length, hl]
    have hnb : b'.nbits = b1.nbits := by rw [← hb]
    unfold Bitv.Inv
    rw [hlen, hnb]
    exact h
  · rw [Bitv.process_eq_none b1 b2 op hl] at hp
    cases hp

theorem getD_replicate_zero (e j : Nat) : (List.replicate e (0 : Nat)).getD j 0 = 0 := by
  rw [List.getD_eq_getElem?_getD]
  by_cases h : j < e
  · rw [List.getElem?_eq_getElem (by simpa using h)]
    simp
  · rw [List.getElem?_eq_none (by simpa using Nat.le_of_not_lt h)]
    rfl

theorem BitvSet.grow_storage_eq (s : BitvSet) (size : Nat) :
    ∃ e, (s.grow size).bitv.storage = s.bitv.storage ++ List.replicate e 0 := by
  simp only [BitvSet.grow]
  split
  · exact ⟨_, rfl⟩
  · exact ⟨0, by simp⟩

theorem BitvSet.grow_length (s : BitvSet) (size : Nat) :
    (s.grow size).bitv.storage.length
      = max s.bitv.storage.length ((size + W - 1) / W) := by
  simp only [BitvSet.grow]
  split
  · next h => simp only [List.length_append, List.length_replicate]; omega
  · next h => simp only [Nat.not_lt] at h; omega

theorem BitvSet.grow_nbits (s : BitvSet) (size : Nat) :
    (s.grow size).bitv.nbits = s.bitv.nbits := by
  simp only [BitvSet.grow]
  split <;> rfl

theorem BitvSet.grow_getD (s : BitvSet) (size k : Nat) :
    (s.grow size).bitv.storage.getD k 0 = s.bitv.storage.getD k 0 := by
  obtain ⟨e, he⟩ := s.grow_storage_eq size
  rw [he]
  by_cases hk : k < s.bitv.storage.length
  · exact List.getD_append _ _ _ _ hk
  · rw [List.getD_append_right _ _ _ _ (by omega), getD_replicate_zero,
      List.getD_eq_default _ _ (by omega)]

/-- `insert` on a value not yet contained decomposes into grow, remask,
length bump, and a final `set`. -/
theorem BitvSet.insert_eq_grow_remask_set (s : BitvSet) (v : Nat)
    (h : s.contains v = false) :
    s.insert v =
      (true,
        ⟨Bitv.set
          (if v ≥ (s.grownFor v).bitv.nbits then
            { (s.grownFor v).bitv.remask with nbits := v + 1 }
          else (s.grownFor v).bitv) v true⟩) := by
  simp only [BitvSet.insert, BitvSet.grownFor, Bitv.remask, h]
  rfl

theorem Bitv.remask_nbits (bv : Bitv) : bv.remask.nbits = bv.nbits := by
  unfold Bitv.remask
  split <;> rfl

theorem Bitv.remask_length (bv : Bitv) :
    bv.remask.storage.length = bv.storage.length := by
  unfold Bitv.remask
  split <;> simp

theorem Bitv.set_length (bv : Bitv) (i : Nat) (x : Bool) :
    (bv.set i x).storage.length = bv.storage.length := by
  simp [Bitv.set]

theorem Bitv.set_nbits (bv : Bitv) (i : Nat) (x : Bool) :
    (bv.set i x).nbits = bv.nbits := rfl

theorem BitvSet.grownFor_capacity_ge (s : BitvSet) (v : Nat) :
    s.capacity ≤ (s.grownFor v).capacity := by
  unfold BitvSet.grownFor BitvSet.capacity
  split
  · rw [BitvSet.grow_length]
    exact Nat.mul_le_mul_right W (Nat.le_max_left _ _)
  · exact Nat.le_refl _

theorem BitvSet.grownFor_capacity_gt (s : BitvSet) (v : Nat) (hv : s.capacity ≤ v) :
    v + 1 ≤ (s.grownFor v).capacity := by
  unfold BitvSet.grownFor
  rw [if_pos hv]
  show v + 1 ≤ (s.grow (max (v + 1) (s.capacity * 2))).bitv.storage.length * W
  rw [BitvSet.grow_length]
  calc v + 1 ≤ max (v + 1) (s.capacity * 2) := Nat.le_max_left _ _
    _ ≤ (max (v + 1) (s.capacity * 2) + W - 1) / W * W := le_ceil_mul _
    _ ≤ max s.bitv.storage.length ((max (v + 1) (s.capacity * 2) + W - 1) / W) * W :=
        Nat.mul_le_mul_right W (Nat.le_max_right _ _)

theorem BitvSet.grownFor_nbits (s : BitvSet) (v : Nat) :
    (s.grownFor v).bitv.nbits = s.bitv.nbits := by
  unfold BitvSet.grownFor
  split
  · exact BitvSet.grow_nbits _ _
  · rfl

/-- `insert` preserves the weak capacity invariant. -/
theorem BitvSet.insert_CapInv (s : BitvSet) (v : Nat) (h : s.CapInv) :
    ((s.insert v).2).CapInv := by
  by_cases hc : s.contains v = true
  · unfold BitvSet.insert
    rw [if_pos hc]
    exact h
  · rw [s.insert_eq_grow_remask_set v (by simpa using hc)]
    unfold BitvSet.CapInv BitvSet.capacity
    simp only
    rw [Bitv.set_nbits, Bitv.set_length]
    by_cases hge : v ≥ (s.grownFor v).bitv.nbits
    · rw [if_pos hge]
      simp only [Bitv.remask_length]
      show v + 1 ≤ (s.grownFor v).bitv.storage.length * W
      by_cases hcap : s.capacity ≤ v
      · exact s.grownFor_capacity_gt v hcap
      · have h1 : s.capacity ≤ (s.grownFor v).capacity := s.grownFor_capacity_ge v
        unfold BitvSet.capacity at h1 hcap
        omega
    · rw [if_neg hge]
      have h1 : s.capacity ≤ (s.grownFor v).capacity := s.grownFor_capacity_ge v
      have h2 : (s.grownFor v).bitv.nbits = s.bitv.nbits := s.grownFor_nbits v
      unfold BitvSet.CapInv at h
      unfold BitvSet.capacity at h1 h
      omega

/-- `remove` preserves the weak capacity invariant. -/
theorem BitvSet.remove_CapInv (s : BitvSet) (v : Nat) (h : s.CapInv) :
    ((s.remove v).2).CapInv := by
  unfold BitvSet.remove
  split
  · exact h
  · unfold BitvSet.CapInv BitvSet.capacity at h ⊢
    simpa [Bitv.set_nbits, Bitv.set_length] using h

/-- `grow` preserves the weak capacity invariant. -/
theorem BitvSet.grow_CapInv (s : BitvSet) (size : Nat) (h : s.CapInv) :
    (s.grow size).CapInv := by
  unfold BitvSet.CapInv BitvSet.capacity at h ⊢
  rw [BitvSet.grow_nbits, BitvSet.grow_length]
  calc s.bitv.nbits ≤ s.bitv.storage.length * W := h
    _ ≤ max s.bitv.storage.length ((size + W - 1) / W) * W :=
        Nat.mul_le_mul_right W (Nat.le_max_left _ _)

/-- `other_op` (all in-place combinators) preserves the weak capacity
invariant. -/
theorem BitvSet.other_op_CapInv (s other : BitvSet) (f : Nat → Nat → Nat)
    (h : s.CapInv) : (s.other_op other f).CapInv := by
  have hg := s.grow_CapInv other.capacity h
  unfold BitvSet.CapInv BitvSet.capacity at hg ⊢
  unfold BitvSet.other_op
  simp only
  rw [foldl_set_length]
  exact hg

theorem takeWhile_len_le (p : Nat → Bool) : ∀ l : List Nat,
    (l.takeWhile p).length ≤ l.length
  | [] => Nat.le_refl _
  | x :: xs => by
    rw [List.takeWhile_cons]
    by_cases hx : p x = true
    · rw [if_pos hx]
      simpa using takeWhile_len_le p xs
    · rw [if_neg hx]
      simp

theorem takeWhile_getD (p : Nat → Bool) : ∀ (l : List Nat) (j : Nat),
    j < (l.takeWhile p).length → p (l.getD j 0) = true
  | [], j, h => by simp at h
  | x :: xs, j, h => by
    rw [List.takeWhile_cons] at h
    by_cases hx : p x = true
    · rw [if_pos hx] at h
      cases j with
      | zero => simpa using hx
      | succ j =>
        rw [List.getD_cons_succ]
        exact takeWhile_getD p xs j (by simpa using h)
    · rw [if_neg hx] at h
      simp at h

/-- Entries inside the trailing run of zero words are zero. -/
theorem trailing_zero_words (l : List Nat) (idx : Nat)
    (h1 : l.length - (l.reverse.takeWhile (fun w => w == 0)).length ≤ idx)
    (h2 : idx < l.length) : l.getD idx 0 = 0 := by
  set n := (l.reverse.takeWhile (fun w => w == 0)).length with hn
  have hnl : n ≤ l.length := by
    have := takeWhile_len_le (fun w => w == 0) l.reverse
    simpa [← hn] using this
  have hj : l.length - 1 - idx < n := by omega
  have hrev : l.reverse.getD (l.length - 1 - idx) 0 = l.getD idx 0 := by
    rw [List.getD_eq_getElem?_getD, List.getD_eq_getElem?_getD,
      List.getElem?_eq_getElem (by simp; omega), List.getElem?_eq_getElem h2]
    simp only [Option.getD_some]
    rw [List.getElem_reverse]
    congr 1
    omega
  have := takeWhile_getD (fun w => w == 0) l.reverse (l.length - 1 - idx) (by rw [← hn]; exact hj)
  rw [hrev] at this
  simpa using this

/-- After `shrink_to_fit` on a nonempty backing vector, the exact
storage invariant holds (`nbits` is word count times `W`). -/
theorem BitvSet.shrink_Inv (s : BitvSet) (h : s.bitv.storage ≠ []) :
    (s.shrink_to_fit).bitv.Inv := by
  simp only [BitvSet.shrink_to_fit, Bitv.Inv]
  have hlen : 1 ≤ s.bitv.storage.length := List.length_pos.mpr h
  have hn_le : (s.bitv.storage.reverse.takeWhile (fun w => w == 0)).length
      ≤ s.bitv.storage.length := by
    have := takeWhile_len_le (fun w => w == 0) s.bitv.storage.reverse
    simpa using this
  rw [List.length_take, ceil_mul_self]
  omega

/-- Claim C1 (corrected).  The `Bitv` operations preserve the exact
storage invariant `storage.len = ceil(nbits/W)`: `new` establishes it,
and `set`, `clear`, `set_all`, `negate` and every `process`-based
whole-vector operation preserve it.  The `BitvSet` operations do NOT
preserve that exact invariant (see `claim_C1_counterexample`); they
preserve only the weaker capacity invariant `nbits ≤ storage.len * W`
-- except `shrink_to_fit`, which re-establishes the exact invariant
when the backing vector is nonempty (and breaks even the weak one on an
empty backing vector). -/
theorem claim_C1_storage_invariant :
    (∀ n init, (Bitv.new n init).Inv) ∧
    (∀ (bv : Bitv) i x, bv.Inv → (bv.set i x).Inv) ∧
    (∀ bv : Bitv, bv.Inv → bv.clear.Inv) ∧
    (∀ bv : Bitv, bv.Inv → bv.set_all.Inv) ∧
    (∀ bv : Bitv, bv.Inv → bv.negate.Inv) ∧
    (∀ (b1 b2 : Bitv) op b' c, b1.Inv → b1.process b2 op = some (b', c) → b'.Inv) ∧
    (∀ (s : BitvSet) v, s.CapInv → ((s.insert v).2).CapInv) ∧
    (∀ (s : BitvSet) v, s.CapInv → ((s.remove v).2).CapInv) ∧
    (∀ (s : BitvSet) size, s.CapInv → (s.grow size).CapInv) ∧
    (∀ (s other : BitvSet) f, s.CapInv → (s.other_op other f).CapInv) ∧
    (∀ s : BitvSet, s.bitv.storage ≠ [] → (s.shrink_to_fit).bitv.Inv) :=
  ⟨Bitv.new_Inv, Bitv.set_Inv, Bitv.clear_Inv, Bitv.set_all_Inv, Bitv.negate_Inv,
    Bitv.process_Inv, BitvSet.insert_CapInv, BitvSet.remove_CapInv,
    BitvSet.grow_CapInv, BitvSet.other_op_CapInv, BitvSet.shrink_Inv⟩

/-- Counterexample to claim C1 as stated: after two `BitvSet` inserts
(values `64` then `128`) the doubling growth policy leaves 4 words of
storage while `ceil(nbits/W) = ceil(129/64) = 3`, so the claimed
equality `storage.len == ceil(nbits/W)` fails after a public `insert`. -/
theorem claim_C1_counterexample :
    ¬ (((BitvSet.new.insert 64).2.insert 128).2.bitv.Inv) := by
  decide

/-- Witness for claim C1's theorem at a concrete input: inserting `5`
into the empty set preserves the weak capacity invariant. -/
theorem claim_C1_witness : ((BitvSet.new.insert 5).2).CapInv :=
  claim_C1_storage_invariant.2.2.2.2.2.2.1 BitvSet.new 5 (by decide)

/-- Claim C9 (confirmed).  For the word width `W`, the all-false vector
`Bitv::new(W, false)` satisfies both `all() == true` (the final-word
check compares the masked last word against `(1 << 0) - 1 = 0`) and
`none() == true`. -/
theorem claim_C9_new_full_word_all_none :
    (Bitv.new W false).all = true ∧ (Bitv.new W false).none = true := by
  constructor <;> rfl

/-! ## Membership facts -/

theorem BitvSet.contains_testBit (s : BitvSet) (v : Nat) :
    s.contains v = (decide (v < s.bitv.nbits) &&
      (s.bitv.storage.getD (v / W) 0).testBit (v % W)) := by
  unfold BitvSet.contains
  rw [Bitv.get_eq_testBit]

theorem BitvSet.contains_word_lt (s : BitvSet) (v : Nat) (h : s.contains v = true) :
    v / W < s.bitv.storage.length := by
  rw [BitvSet.contains_testBit] at h
  by_contra hge
  rw [List.getD_eq_default _ _ (Nat.le_of_not_lt hge), Nat.zero_testBit] at h
  simp at h

theorem lt_succ_div_mul (v : Nat) : v < (v / W + 1) * W := by
  have h1 := Nat.div_add_mod v W
  have h2 : v % W < W := Nat.mod_lt v W_pos
  rw [Nat.succ_mul]
  rw [Nat.mul_comm W (v / W)] at h1
  omega

/-- Every member of a set lies below its capacity. -/
theorem BitvSet.contains_lt_capacity (s : BitvSet) (v : Nat) (h : s.contains v = true) :
    v < s.capacity := by
  have hk := s.contains_word_lt v h
  have h1 := lt_succ_div_mul v
  have h2 : (v / W + 1) * W ≤ s.bitv.storage.length * W :=
    Nat.mul_le_mul_right W hk
  unfold BitvSet.capacity
  omega

/-- Claim C2 (corrected, for a nonempty backing vector): after
`shrink_to_fit`, every previous member is still a member, the capacity
is a positive multiple of `W`, and `nbits` equals the remaining word
count times `W`.  (On an empty backing vector the capacity stays `0`
and `nbits` becomes `W`; see `claim_C2_counterexample`.) -/
theorem claim_C2_shrink_to_fit (s : BitvSet) (hne : s.bitv.storage ≠ []) :
    (∀ v, s.contains v = true → (s.shrink_to_fit).contains v = true) ∧
    0 < (s.shrink_to_fit).capacity ∧
    (∃ k, (s.shrink_to_fit).capacity = k * W) ∧
    (s.shrink_to_fit).bitv.nbits = (s.shrink_to_fit).bitv.storage.length * W := by
  have hlen : 1 ≤ s.bitv.storage.length := List.length_pos.mpr hne
  have hn_le : (s.bitv.storage.reverse.takeWhile (fun w => w == 0)).length
      ≤ s.bitv.storage.length := by
    simpa using takeWhile_len_le (fun w => w == 0) s.bitv.storage.reverse
  set n := (s.bitv.storage.reverse.takeWhile (fun w => w == 0)).length with hn
  set trunc := max (s.bitv.storage.length - n) 1 with htrunc
  have hshr : s.shrink_to_fit = ⟨⟨s.bitv.storage.take trunc, trunc * W⟩⟩ := rfl
  have hslen : (s.bitv.storage.take trunc).length = trunc := by
    rw [List.length_take]
    omega
  have hcap : (s.shrink_to_fit).capacity = trunc * W := by
    rw [hshr]
    show (s.bitv.storage.take trunc).length * W = trunc * W
    rw [hslen]
  refine ⟨?_, ?_, ⟨trunc, hcap⟩, ?_⟩
  · intro v hv
    have hkl := s.contains_word_lt v hv
    rw [BitvSet.contains_testBit] at hv
    simp only [Bool.and_eq_true, decide_eq_true_eq] at hv
    have hkt : v / W < trunc := by
      by_contra hge
      have h0 : s.bitv.storage.getD (v / W) 0 = 0 :=
        trailing_zero_words _ _ (by omega) hkl
      rw [h0, Nat.zero_testBit] at hv
      exact Bool.false_ne_true hv.2
    rw [hshr, BitvSet.contains_testBit]
    have hget : (s.bitv.storage.take trunc).getD (v / W) 0
        = s.bitv.storage.getD (v / W) 0 := by
      rw [List.getD_eq_getElem?_getD, List.getElem?_take, if_pos hkt,
        ← List.getD_eq_getElem?_getD]
    have hvlt : v < trunc * W := by
      have h1 := lt_succ_div_mul v
      have h2 : (v / W + 1) * W ≤ trunc * W := Nat.mul_le_mul_right W hkt
      omega
    show (decide (v < trunc * W) && _) = true
    rw [hget, hv.2]
    simp [hvlt]
  · rw [hcap]
    exact Nat.mul_pos (by omega) W_pos
  · rw [hshr]
    show trunc * W = (s.bitv.storage.take trunc).length * W
    rw [hslen]

/-- Counterexample to claim C2 as stated: `shrink_to_fit` on the empty
set (`capacity = 0`, no storage words) cannot keep one word — `truncate`
never extends — so the resulting capacity is `0`, not a positive
multiple of `W`, while `nbits` is nevertheless set to `1 * W = 64`. -/
theorem claim_C2_counterexample :
    (BitvSet.new.shrink_to_fit).capacity = 0 ∧
    (BitvSet.new.shrink_to_fit).bitv.nbits = W ∧
    ¬ ((BitvSet.new.shrink_to_fit).bitv.nbits
        = (BitvSet.new.shrink_to_fit).bitv.storage.length * W) := by
  refine ⟨rfl, rfl, ?_⟩
  decide

/-- Witness for claim C2's theorem: shrinking `{3}` keeps the member
`3` and yields the positive capacity of one word. -/
theorem claim_C2_witness :
    (((BitvSet.new.insert 3).2.shrink_to_fit).contains 3 = true) ∧
    0 < ((BitvSet.new.insert 3).2.shrink_to_fit).capacity :=
  ⟨(claim_C2_shrink_to_fit (BitvSet.new.insert 3).2 (by decide)).1 3 (by decide),
    (claim_C2_shrink_to_fit (BitvSet.new.insert 3).2 (by decide)).2.1⟩

/-! ## Claim C10: the frame effect of `intersect_with` -/

theorem Bitv.mask_words_mem_lt (bv : Bitv) (iw : Nat × Nat)
    (h : iw ∈ bv.mask_words 0) : iw.1 < bv.storage.length := by
  rw [Bitv.mask_words_zero] at h
  simp only [List.mem_map, List.mem_range] at h
  obtain ⟨j, hj, hje⟩ := h
  rw [← hje]
  exact hj

/-- Claim C10 (confirmed).  `intersect_with` rewrites only the words
covered by the other set's storage: a member `v` of `a` with
`v ≥ b.capacity()` survives `a.intersect_with(&b)`. -/
theorem claim_C10_intersect_with_frame (a b : BitvSet) (v : Nat)
    (hcap : b.capacity ≤ v) (hmem : a.contains v = true) :
    (a.intersect_with b).contains v = true := by
  have hk := a.contains_word_lt v hmem
  have hbk : b.bitv.storage.length ≤ v / W := by
    refine (Nat.le_div_iff_mul_le W_pos).mpr ?_
    exact hcap
  rw [BitvSet.contains_testBit] at hmem
  unfold BitvSet.intersect_with BitvSet.other_op
  rw [BitvSet.contains_testBit]
  simp only
  rw [foldl_set_getD_ne _ _ _ _
    (fun iw hiw => by
      have := b.bitv.mask_words_mem_lt iw hiw
      omega)]
  rw [BitvSet.grow_getD, BitvSet.grow_nbits]
  exact hmem

/-- Witness for claim C10's theorem: `{70}.intersect_with {1}` keeps
`70`, which lies beyond the one-word capacity of `{1}`. -/
theorem claim_C10_witness :
    (((BitvSet.new.insert 70).2.intersect_with (BitvSet.new.insert 1).2).contains 70)
      = true :=
  claim_C10_intersect_with_frame (BitvSet.new.insert 70).2 (BitvSet.new.insert 1).2 70
    (by decide) (by decide)

/-! ## Claim C5: the fixed-length whole-vector operations -/

theorem Bitv.process_none_iff (b1 b2 : Bitv) (op : Nat → Nat → Nat) :
    b1.process b2 op = Option.none ↔ b1.storage.length ≠ b2.storage.length := by
  constructor
  · intro h heq
    rw [Bitv.process_eq_some b1 b2 op heq] at h
    cases h
  · exact Bitv.process_eq_none b1 b2 op

theorem Bitv.process_changed_iff (b1 b2 : Bitv) (op : Nat → Nat → Nat)
    (b' : Bitv) (c : Bool) (hp : b1.process b2 op = some (b', c)) :
    c = true ↔ b'.storage ≠ b1.storage := by
  by_cases hl : b1.storage.length = b2.storage.length
  · rw [Bitv.process_eq_some b1 b2 op hl] at hp
    simp only [Option.some.injEq, Prod.mk.injEq] at hp
    obtain ⟨h1, h2⟩ := hp
    have hmsk : b1.storage.length ≤ ((b2.mask_words 0).map Prod.snd).length := by
      rw [List.length_map, Bitv.mask_words_zero_length, hl]
    have hfst := List.map_fst_zip b1.storage ((b2.mask_words 0).map Prod.snd) hmsk
    rw [← h2, ← h1]
    rw [any_ne_iff]
    rw [hfst]
  · rw [Bitv.process_eq_none b1 b2 op hl] at hp
    cases hp

/-- Claim C5 (confirmed).  Each of `union`, `intersect`, `difference`,
`assign` fails (modelling the fatal `assert_eq!`) exactly when the two
operands' word counts differ; on equal word counts they complete,
returning `true` iff some word of `self` changed; and on the spec's
concrete example `b1.difference(&b2)` leaves bit 0 set, bits 1 and 2
clear, and returns `true`. -/
theorem claim_C5_fixed_length_ops :
    (∀ b1 b2 : Bitv,
      ((b1.union b2 = Option.none) ↔ b1.storage.length ≠ b2.storage.length) ∧
      ((b1.intersect b2 = Option.none) ↔ b1.storage.length ≠ b2.storage.length) ∧
      ((b1.difference b2 = Option.none) ↔ b1.storage.length ≠ b2.storage.length) ∧
      ((b1.assign b2 = Option.none) ↔ b1.storage.length ≠ b2.storage.length)) ∧
    (∀ (b1 b2 : Bitv) (op : Nat → Nat → Nat) (b' : Bitv) (c : Bool),
      b1.process b2 op = some (b', c) → (c = true ↔ b'.storage ≠ b1.storage)) ∧
    (b1ex.difference b2ex = some (⟨[1], 3⟩, true) ∧
      (⟨[1], 3⟩ : Bitv).get 0 = true ∧ (⟨[1], 3⟩ : Bitv).get 1 = false ∧
      (⟨[1], 3⟩ : Bitv).get 2 = false) :=
  ⟨fun b1 b2 =>
    ⟨Bitv.process_none_iff b1 b2 _, Bitv.process_none_iff b1 b2 _,
      Bitv.process_none_iff b1 b2 _, Bitv.process_none_iff b1 b2 _⟩,
    Bitv.process_changed_iff,
    by decide, by decide, by decide, by decide⟩

/-- Witness for claim C5's theorem: at the spec's concrete difference
example, the changed flag `true` agrees with the storage having
changed. -/
theorem claim_C5_witness :
    (true = true ↔ (⟨[1], 3⟩ : Bitv).storage ≠ b1ex.storage) :=
  claim_C5_fixed_length_ops.2.1 b1ex b2ex (fun w1 w2 => w1 &&& complW w2)
    ⟨[1], 3⟩ true (by decide)

/-! ## Claim C4: the `Bits` iterator's random access -/

theorem Bits.advanceFront_eq : ∀ (k : Nat) (b : Bits),
    k ≤ b.end_idx - b.next_idx →
    Bits.advanceFront k b = ⟨b.bitv, b.next_idx + k, b.end_idx⟩
  | 0, b, _ => by
    cases b
    rfl
  | k + 1, b, h => by
    have hne : b.next_idx ≠ b.end_idx := by omega
    rw [Bits.advanceFront,
      show (b.next).2 = ⟨b.bitv, b.next_idx + 1, b.end_idx⟩ from by
        simp [Bits.next, hne],
      Bits.advanceFront_eq k ⟨b.bitv, b.next_idx + 1, b.end_idx⟩
        (by show k ≤ b.end_idx - (b.next_idx + 1); omega)]
    simp only [Bits.mk.injEq, true_and, and_true]
    omega

theorem Bits.advanceBack_eq : ∀ (m : Nat) (b : Bits),
    m ≤ b.end_idx - b.next_idx →
    Bits.advanceBack m b = ⟨b.bitv, b.next_idx, b.end_idx - m⟩
  | 0, b, _ => by
    cases b
    simp [Bits.advanceBack]
  | m + 1, b, h => by
    have hne : b.next_idx ≠ b.end_idx := by omega
    rw [Bits.advanceBack,
      show (b.next_back).2 = ⟨b.bitv, b.next_idx, b.end_idx - 1⟩ from by
        simp [Bits.next_back, hne],
      Bits.advanceBack_eq m ⟨b.bitv, b.next_idx, b.end_idx - 1⟩
        (by show m ≤ b.end_idx - 1 - b.next_idx; omega)]
    simp only [Bits.mk.injEq, true_and, and_true]
    omega

/-- Claim C4 (corrected).  After consuming `k` elements from the front
and `m` from the back of `bv.iter()`, `idx(j)` is bounded by the
remaining count `nbits - k - m`, but it addresses the vector
*absolutely*: it returns `Some(bv.get(j))` — the bit at index `j`, not
at `k + j` — for `j` below the remaining count, and `None` otherwise. -/
theorem claim_C4_bits_idx (bv : Bitv) (k m j : Nat) (h : k + m ≤ bv.nbits) :
    (Bits.advanceBack m (Bits.advanceFront k bv.iter)).idx j
      = if j < bv.nbits - k - m then some (bv.get j) else Option.none := by
  rw [show bv.iter = ⟨bv, 0, bv.nbits⟩ from rfl,
    Bits.advanceFront_eq k _ (by simp only []; omega),
    Bits.advanceBack_eq m _ (by simp only []; omega)]
  unfold Bits.idx Bits.indexable
  simp only []
  by_cases hj : j < bv.nbits - k - m
  · rw [if_neg (by omega), if_pos (by omega)]
  · rw [if_pos (by omega), if_neg (by omega)]

/-- Counterexample to claim C4 as stated: on the two-bit vector `01`,
consume one element from the front (`k = 1`); then `idx(0)` returns the
bit at absolute index `0` (`false`), not the bit at index `k + 0 = 1`
(`true`) as the claim's remaining-window offset semantics requires. -/
theorem claim_C4_counterexample :
    ((from_bools [false, true]).iter.next).2.idx 0
      ≠ some ((from_bools [false, true]).get (1 + 0)) := by
  decide

/-- Witness for claim C4's theorem at the same concrete input: with
`k = 1`, `m = 0`, `j = 0` on the vector `01`, `idx(0)` is
`some (get 0)`. -/
theorem claim_C4_witness :
    (Bits.advanceBack 0 (Bits.advanceFront 1 (from_bools [false, true]).iter)).idx 0
      = if 0 < (from_bools [false, true]).nbits - 1 - 0 then
          some ((from_bools [false, true]).get 0)
        else Option.none :=
  claim_C4_bits_idx (from_bools [false, true]) 1 0 0 (by decide)

/-! ## Bit-level `get`/`set` reasoning -/

theorem and_mask_testBit (x r j : Nat) :
    (x &&& (2 ^ r - 1)).testBit j = (x.testBit j && decide (j < r)) := by
  rw [Nat.testBit_land, Nat.testBit_two_pow_sub_one]

theorem Bitv.get_set (bv : Bitv) (i j : Nat) (x : Bool)
    (hw : j / W < bv.storage.length) :
    (bv.set j x).get i = if i = j then x else bv.get i := by
  have hiW : i % W < W := Nat.mod_lt i W_pos
  rw [Bitv.get_eq_testBit, Bitv.get_eq_testBit]
  unfold Bitv.set
  simp only [Nat.one_shiftLeft]
  by_cases hww : i / W = j / W
  · have hset : ∀ nw : Nat, (bv.storage.set (j / W) nw).getD (i / W) 0 = nw := by
      intro nw
      rw [hww, List.getD_eq_getElem?_getD, List.getElem?_set_self hw, Option.getD_some]
    rw [hset, hww]
    by_cases hij : i = j
    · subst hij
      rw [if_pos rfl]
      cases x
      · simp only [Bool.false_eq_true, if_false]
        rw [Nat.testBit_land, complW_testBit _ _ hiW, Nat.testBit_two_pow]
        simp
      · simp only [if_true]
        rw [Nat.testBit_lor, Nat.testBit_two_pow]
        simp
    · have hmod : j % W ≠ i % W := by
        intro hc
        apply hij
        have h1 := Nat.div_add_mod i W
        have h2 := Nat.div_add_mod j W
        rw [hww] at h1
        omega
      rw [if_neg hij]
      cases x
      · simp only [Bool.false_eq_true, if_false]
        rw [Nat.testBit_land, complW_testBit _ _ hiW, Nat.testBit_two_pow]
        simp [hmod]
      · simp only [if_true]
        rw [Nat.testBit_lor, Nat.testBit_two_pow]
        simp [hmod]
  · have hij : i ≠ j := fun hc => hww (by rw [hc])
    rw [if_neg hij, List.getD_eq_getElem?_getD,
      List.getElem?_set_ne (fun hc => hww hc.symm), ← List.getD_eq_getElem?_getD]

theorem ceil_eq_of_mod_eq_zero (x : Nat) (h : x % W = 0) :
    (x + W - 1) / W = x / W := by
  have hW := W_pos
  have h1 := Nat.div_add_mod x W
  have h2 : x + W - 1 = W * (x / W) + (W - 1) := by omega
  rw [h2, Nat.mul_add_div W_pos]
  have h3 : (W - 1) / W = 0 := Nat.div_eq_of_lt (by omega)
  omega

theorem ceil_eq_of_mod_ne_zero (x : Nat) (h : x % W ≠ 0) :
    (x + W - 1) / W = x / W + 1 := by
  have hW := W_pos
  have h1 := Nat.div_add_mod x W
  have hr : x % W < W := Nat.mod_lt x W_pos
  have h2 : x + W - 1 = W * (x / W) + (x % W + W - 1) := by omega
  rw [h2, Nat.mul_add_div W_pos]
  have h3 : (x % W + W - 1) / W = 1 := by
    have h4 : 1 ≤ (x % W + W - 1) / W := (Nat.le_div_iff_mul_le W_pos).mpr (by omega)
    have h5 : (x % W + W - 1) / W < 2 := (Nat.div_lt_iff_lt_mul W_pos).mpr (by omega)
    omega
  omega

theorem ceil_le_iff (x t : Nat) : (x + W - 1) / W ≤ t ↔ x ≤ t * W := by
  have hW := W_pos
  rw [Nat.div_le_iff_le_mul_add_pred W_pos, Nat.mul_comm W t]
  omega

/-- Claim C3 (corrected).  For `v ≥ L` (`L` the backing length),
provided `L` fits the capacity and every storage word at index
`≥ ceil(L/W)` is zero (don't-care garbage can only live in the final
partial word), `insert(v)` returns `true`, sets the backing length to
`v + 1`, makes `contains(v)` true and leaves `contains(u)` false for
`L ≤ u < v`; when `v ≥ capacity` the capacity grows to
`max(v+1, capacity*2)` rounded up to a whole word; and no existing
member is lost.  Without the zero-beyond-final-word hypothesis the
don't-care clearing claim fails: see `claim_C3_counterexample`. -/
theorem claim_C3_insert_extends (s : BitvSet) (v : Nat)
    (hv : s.bitv.nbits ≤ v) (hspan : s.CapInv)
    (hclean : ∀ k, (s.bitv.nbits + W - 1) / W ≤ k → s.bitv.storage.getD k 0 = 0) :
    (s.insert v).1 = true ∧
    (s.insert v).2.bitv.nbits = v + 1 ∧
    (s.insert v).2.contains v = true ∧
    (∀ u, s.bitv.nbits ≤ u → u < v → (s.insert v).2.contains u = false) ∧
    (s.capacity ≤ v →
      (s.insert v).2.capacity = (max (v + 1) (s.capacity * 2) + W - 1) / W * W) ∧
    (∀ u, s.contains u = true → (s.insert v).2.contains u = true) := by
  have hW := W_pos
  have hnc : s.contains v = false := by
    rw [BitvSet.contains_testBit]
    simp [Nat.not_lt.mpr hv]
  rw [BitvSet.insert_eq_grow_remask_set s v hnc]
  have hnb1 : (s.grownFor v).bitv.nbits = s.bitv.nbits := s.grownFor_nbits v
  rw [if_pos (show v ≥ (s.grownFor v).bitv.nbits from by rw [hnb1]; exact hv)]
  set s1 := s.grownFor v with hs1
  set bv2 := s1.bitv.remask with hbv2
  have hgd1 : ∀ k, s1.bitv.storage.getD k 0 = s.bitv.storage.getD k 0 := by
    intro k
    rw [hs1]
    unfold BitvSet.grownFor
    split
    · exact BitvSet.grow_getD s _ k
    · rfl
  have hlen_s_le : s.bitv.storage.length ≤ s1.bitv.storage.length := by
    rw [hs1]
    unfold BitvSet.grownFor
    split
    · rw [BitvSet.grow_length]
      exact Nat.le_max_left _ _
    · exact Nat.le_refl _
  have hcap1 : s1.capacity = s1.bitv.storage.length * W := rfl
  have hvcap : v + 1 ≤ s1.capacity := by
    by_cases hc : s.capacity ≤ v
    · rw [hs1]
      exact s.grownFor_capacity_gt v hc
    · have h := s.grownFor_capacity_ge v
      rw [← hs1] at h
      omega
  have hvlen : v / W < s1.bitv.storage.length := by
    rw [Nat.div_lt_iff_lt_mul W_pos]
    omega
  have hLlen : (s.bitv.nbits + W - 1) / W ≤ s1.bitv.storage.length := by
    rw [ceil_le_iff]
    have h1 : s.bitv.nbits ≤ s.capacity := hspan
    have h2 : s.capacity = s.bitv.storage.length * W := rfl
    have h3 : s.bitv.storage.length * W ≤ s1.bitv.storage.length * W :=
      Nat.mul_le_mul_right W hlen_s_le
    omega
  have hre : ∀ k, bv2.storage.getD k 0 =
      if s.bitv.nbits % W ≠ 0 ∧ k = (s.bitv.nbits + W - 1) / W - 1 then
        s.bitv.storage.getD k 0 &&& (2 ^ (s.bitv.nbits % W) - 1)
      else s.bitv.storage.getD k 0 := by
    intro k
    rw [hbv2]
    unfold Bitv.remask
    rw [hnb1]
    by_cases hr : s.bitv.nbits % W ≠ 0
    · rw [if_pos hr]
      by_cases hk : k = (s.bitv.nbits + W - 1) / W - 1
      · subst hk
        have h0 : s.bitv.nbits ≠ 0 := fun hc => hr (by rw [hc]; simp)
        have hge1 : 1 ≤ (s.bitv.nbits + W - 1) / W :=
          (Nat.le_div_iff_mul_le W_pos).mpr (by omega)
        have hlw : (s.bitv.nbits + W - 1) / W - 1 < s1.bitv.storage.length := by
          omega
        show (s1.bitv.storage.set _ _).getD _ 0 = _
        rw [List.getD_eq_getElem?_getD, List.getElem?_set_self hlw, Option.getD_some,
          if_pos ⟨hr, rfl⟩, hgd1, Nat.one_shiftLeft]
      · show (s1.bitv.storage.set _ _).getD _ 0 = _
        rw [List.getD_eq_getElem?_getD,
          List.getElem?_set_ne (fun hc => hk hc.symm),
          ← List.getD_eq_getElem?_getD, hgd1,
          if_neg (fun hc => hk hc.2)]
    · rw [if_neg hr, hgd1, if_neg (fun hc => hr hc.1)]
  have hbv2len : bv2.storage.length = s1.bitv.storage.length := by
    rw [hbv2]
    exact Bitv.remask_length _
  set bv3 := ({ bv2 with nbits := v + 1 } : Bitv) with hbv3
  have hget3 : ∀ i, (bv3.set v true).get i = if i = v then true else bv3.get i := by
    intro i
    exact Bitv.get_set bv3 i v true
      (show v / W < bv2.storage.length from by rw [hbv2len]; exact hvlen)
  have hgu : ∀ u, bv3.get u = (bv2.storage.getD (u / W) 0).testBit (u % W) :=
    fun u => Bitv.get_eq_testBit bv3 u
  refine ⟨rfl, rfl, ?_, ?_, ?_, ?_⟩
  · have h : (⟨bv3.set v true⟩ : BitvSet).contains v
        = (decide (v < v + 1) && (bv3.set v true).get v) := rfl
    rw [h, hget3, if_pos rfl]
    simp
  · intro u hu1 hu2
    have h : (⟨bv3.set v true⟩ : BitvSet).contains u
        = (decide (u < v + 1) && (bv3.set v true).get u) := rfl
    rw [h, hget3, if_neg (by omega), hgu, hre (u / W)]
    by_cases hcase : s.bitv.nbits % W ≠ 0 ∧
        u / W = (s.bitv.nbits + W - 1) / W - 1
    · rw [if_pos hcase, and_mask_testBit]
      obtain ⟨hr, hk⟩ := hcase
      rw [ceil_eq_of_mod_ne_zero s.bitv.nbits hr] at hk
      simp only [Nat.add_sub_cancel] at hk
      have h1 := Nat.div_add_mod u W
      have h2 := Nat.div_add_mod s.bitv.nbits W
      rw [hk] at h1
      have hmge : ¬ (u % W < s.bitv.nbits % W) := by omega
      simp [hmge]
    · rw [if_neg hcase]
      have hk : (s.bitv.nbits + W - 1) / W ≤ u / W := by
        by_cases hr : s.bitv.nbits % W = 0
        · rw [ceil_eq_of_mod_eq_zero _ hr]
          exact Nat.div_le_div_right hu1
        · have hne2 : u / W ≠ (s.bitv.nbits + W - 1) / W - 1 :=
            fun hc => hcase ⟨hr, hc⟩
          rw [ceil_eq_of_mod_ne_zero _ hr] at hne2 ⊢
          simp only [Nat.add_sub_cancel] at hne2
          have hq : s.bitv.nbits / W ≤ u / W := Nat.div_le_div_right hu1
          exact Nat.succ_le_of_lt (Nat.lt_of_le_of_ne hq (Ne.symm hne2))
      rw [hclean _ hk, Nat.zero_testBit]
      simp
  · intro hcap
    have hs1len : s1.bitv.storage.length
        = (max (v + 1) (s.capacity * 2) + W - 1) / W := by
      rw [hs1]
      unfold BitvSet.grownFor
      rw [if_pos hcap, BitvSet.grow_length]
      have h1 : s.bitv.storage.length
          ≤ (max (v + 1) (s.capacity * 2) + W - 1) / W := by
        rw [Nat.le_div_iff_mul_le W_pos]
        have h2 : s.capacity = s.bitv.storage.length * W := rfl
        have h3 : v + 1 ≤ max (v + 1) (s.capacity * 2) := Nat.le_max_left _ _
        omega
      omega
    show (bv3.set v true).storage.length * W = _
    rw [Bitv.set_length]
    show bv2.storage.length * W = _
    rw [hbv2len, hs1len]
  · intro u hu
    rw [BitvSet.contains_testBit] at hu
    simp only [Bool.and_eq_true, decide_eq_true_eq] at hu
    obtain ⟨hu1, hu2⟩ := hu
    have huv : u < v + 1 := by omega
    have hne : u ≠ v := by omega
    have h : (⟨bv3.set v true⟩ : BitvSet).contains u
        = (decide (u < v + 1) && (bv3.set v true).get u) := rfl
    rw [h, hget3, if_neg hne, hgu, hre (u / W)]
    by_cases hcase : s.bitv.nbits % W ≠ 0 ∧
        u / W = (s.bitv.nbits + W - 1) / W - 1
    · rw [if_pos hcase, and_mask_testBit]
      obtain ⟨hr, hk⟩ := hcase
      rw [ceil_eq_of_mod_ne_zero s.bitv.nbits hr] at hk
      simp only [Nat.add_sub_cancel] at hk
      have h1 := Nat.div_add_mod u W
      have h2 := Nat.div_add_mod s.bitv.nbits W
      rw [hk] at h1
      have hmlt : u % W < s.bitv.nbits % W := by omega
      rw [hu2]
      simp [hmlt, huv]
    · rw [if_neg hcase, hu2]
      simp [huv]

/-- Counterexample to claim C3 as stated: `setDirty` (built by public
operations `new`, `insert`, `union_with`) has backing length `L = 0` but
bit `5` set in storage; `insert(10)` skips the re-mask entirely because
`L % W = 0`, so afterwards `contains(5)` is `true` even though
`L ≤ 5 < 10` — the claimed clearing of stale bits beyond the old length
does not happen for whole words beyond the old final word. -/
theorem claim_C3_counterexample :
    setDirty.bitv.nbits ≤ 5 ∧ 5 < 10 ∧
      (setDirty.insert 10).2.contains 5 = true := by
  decide

/-- Witness for claim C3's theorem: inserting `10` into `{5}` (length 6,
one clean word) returns `true`, sets the length to `11`, and reports
`10` as contained. -/
theorem claim_C3_witness :
    (setFive.insert 10).1 = true ∧
    (setFive.insert 10).2.bitv.nbits = 11 ∧
    (setFive.insert 10).2.contains 10 = true :=
  ⟨(claim_C3_insert_extends setFive 10 (by decide) (by decide)
      (fun k hk => List.getD_eq_default _ _ (le_trans
        (by decide : setFive.bitv.storage.length
          ≤ (setFive.bitv.nbits + W - 1) / W) hk))).1,
    (claim_C3_insert_extends setFive 10 (by decide) (by decide)
      (fun k hk => List.getD_eq_default _ _ (le_trans
        (by decide : setFive.bitv.storage.length
          ≤ (setFive.bitv.nbits + W - 1) / W) hk))).2.1,
    (claim_C3_insert_extends setFive 10 (by decide) (by decide)
      (fun k hk => List.getD_eq_default _ _ (le_trans
        (by decide : setFive.bitv.storage.length
          ≤ (setFive.bitv.nbits + W - 1) / W) hk))).2.2.1⟩

/-! ## Claim C6: equality through the masked view -/

theorem zip_range' (s : Nat) : ∀ (n m : Nat),
    (List.range' s n).zip (List.range' s m)
      = (List.range' s (min n m)).map (fun k => (k, k)) := by
  intro n
  induction n generalizing s with
  | zero => intro m; simp
  | succ n ih =>
    intro m
    cases m with
    | zero => simp
    | succ m =>
      rw [List.range'_succ, List.range'_succ, List.zip_cons_cons,
        Nat.succ_min_succ, List.range'_succ, List.map_cons, ih (s + 1) m]

theorem zip_map_range {α β : Type} (n m : Nat) (f : Nat → α) (g : Nat → β) :
    ((List.range n).map f).zip ((List.range m).map g)
      = (List.range (min n m)).map (fun k => (f k, g k)) := by
  rw [List.range_eq_range', List.range_eq_range', List.range_eq_range',
    List.zip_map, zip_range', List.map_map]
  rfl

/-- Word `k` of the masked view, seen bit by bit: below `nbits` it is
`get`, at or above `nbits` it reads zero (within the word width). -/
theorem Bitv.maskedWord_testBit (bv : Bitv) (hInv : bv.Inv) (k j : Nat)
    (hk : k < bv.storage.length) (hj : j < W) :
    (bv.maskedWord k).testBit j
      = if k * W + j < bv.nbits then bv.get (k * W + j) else false := by
  have hW := W_pos
  have hdiv : (k * W + j) / W = k := by
    rw [Nat.mul_comm k W, Nat.mul_add_div W_pos, Nat.div_eq_of_lt hj]
    omega
  have hmod : (k * W + j) % W = j := by
    rw [Nat.mul_comm k W, Nat.mul_add_mod, Nat.mod_eq_of_lt hj]
  rw [Bitv.get_eq_testBit, hdiv, hmod]
  unfold Bitv.maskedWord Bitv.lastWordMask
  by_cases hlast : k + 1 = bv.storage.length
  · rw [if_pos hlast]
    by_cases hrem : bv.nbits % W > 0
    · rw [if_pos hrem, Nat.one_shiftLeft, and_mask_testBit]
      have hlen : bv.storage.length = (bv.nbits + W - 1) / W := hInv
      rw [ceil_eq_of_mod_ne_zero bv.nbits (by omega)] at hlen
      have hkq : k = bv.nbits / W := by omega
      have h2 := Nat.div_add_mod bv.nbits W
      by_cases hcond : k * W + j < bv.nbits
      · rw [if_pos hcond]
        have hjr : j < bv.nbits % W := by
          rw [hkq, Nat.mul_comm] at hcond
          omega
        simp [hjr]
      · rw [if_neg hcond]
        have hjr : ¬ (j < bv.nbits % W) := by
          rw [hkq, Nat.mul_comm] at hcond
          omega
        simp [hjr]
    · rw [if_neg hrem, allOnes_eq, and_mask_testBit]
      have hlen : bv.storage.length = (bv.nbits + W - 1) / W := hInv
      rw [ceil_eq_of_mod_eq_zero bv.nbits (by omega)] at hlen
      have h2 := Nat.div_add_mod bv.nbits W
      have hcond : k * W + j < bv.nbits :=
        calc k * W + j < k * W + W := by omega
          _ = (k + 1) * W := by rw [Nat.succ_mul]
          _ = bv.nbits / W * W := by rw [hlast, hlen]
          _ = W * (bv.nbits / W) := Nat.mul_comm _ _
          _ ≤ bv.nbits := by omega
      rw [if_pos hcond]
      simp [hj]
  · rw [if_neg hlast]
    have hcond : k * W + j < bv.nbits := by
      have hlt : ¬ ((bv.nbits + W - 1) / W ≤ bv.storage.length - 1) := by
        rw [← hInv]
        omega
      rw [ceil_le_iff] at hlt
      push_neg at hlt
      have hk1 : k + 1 ≤ bv.storage.length - 1 := by omega
      have h3 : (k + 1) * W ≤ (bv.storage.length - 1) * W :=
        Nat.mul_le_mul_right W hk1
      rw [Nat.succ_mul] at h3
      omega
    rw [if_pos hcond]

/-- Within a valid word list, bits at or above the word width read zero
through the masked view. -/
theorem Bitv.maskedWord_testBit_high (bv : Bitv) (hwf : bv.WordsWF) (k j : Nat)
    (hk : k < bv.storage.length) (hj : W ≤ j) :
    (bv.maskedWord k).testBit j = false := by
  have hmem : bv.storage.getD k 0 ∈ bv.storage := by
    rw [List.getD_eq_getElem?_getD, List.getElem?_eq_getElem hk]
    exact List.getElem_mem _
  have hwlt : bv.storage.getD k 0 < 2 ^ j :=
    Nat.lt_of_lt_of_le (hwf _ hmem) (Nat.pow_le_pow_right (by decide) hj)
  unfold Bitv.maskedWord
  by_cases hlast : k + 1 = bv.storage.length
  · rw [if_pos hlast, Nat.testBit_land, Nat.testBit_lt_two_pow hwlt]
    rfl
  · rw [if_neg hlast]
    exact Nat.testBit_lt_two_pow hwlt

/-- Claim C6 (confirmed).  For vectors satisfying the storage invariant
(exact word count, machine-word-sized entries), `PartialEq` equality
holds iff the lengths agree and every bit below the length agrees: it
is independent of don't-care bits beyond the length, and vectors of
different lengths are never equal. -/
theorem claim_C6_partial_eq (v1 v2 : Bitv)
    (hi1 : v1.Inv) (hw1 : v1.WordsWF) (hi2 : v2.Inv) (hw2 : v2.WordsWF) :
    v1.beq v2 = true ↔
      (v1.nbits = v2.nbits ∧ ∀ i, i < v1.nbits → v1.get i = v2.get i) := by
  have hW := W_pos
  have hchar : v1.beq v2 = true ↔
      (v1.nbits = v2.nbits ∧
        ∀ k, k < min v1.storage.length v2.storage.length →
          v1.maskedWord k = v2.maskedWord k) := by
    unfold Bitv.beq
    rw [Bitv.mask_words_zero, Bitv.mask_words_zero, zip_map_range,
      Bool.and_eq_true, beq_iff_eq]
    constructor
    · rintro ⟨h1, h2⟩
      refine ⟨h1, fun k hk => ?_⟩
      rw [List.all_eq_true] at h2
      have := h2 _ (List.mem_map_of_mem _ (List.mem_range.mpr hk))
      simpa using this
    · rintro ⟨h1, h2⟩
      refine ⟨h1, ?_⟩
      rw [List.all_eq_true]
      rintro p hp
      rw [List.mem_map] at hp
      obtain ⟨k, hk, rfl⟩ := hp
      simpa using h2 k (List.mem_range.mp hk)
  rw [hchar]
  constructor
  · rintro ⟨hn, hmw⟩
    refine ⟨hn, fun i hi => ?_⟩
    have hik : i / W < v1.storage.length := by
      rw [Nat.div_lt_iff_lt_mul W_pos]
      have h2 := le_ceil_mul v1.nbits
      have h3 : v1.storage.length = (v1.nbits + W - 1) / W := hi1
      rw [h3]
      omega
    have hik2 : i / W < v2.storage.length := by
      rw [Nat.div_lt_iff_lt_mul W_pos]
      have h2 := le_ceil_mul v2.nbits
      have h3 : v2.storage.length = (v2.nbits + W - 1) / W := hi2
      rw [h3]
      omega
    have hmin : i / W < min v1.storage.length v2.storage.length :=
      lt_min hik hik2
    have hi' : i / W * W + i % W = i := by
      rw [Nat.mul_comm]
      exact Nat.div_add_mod i W
    have e1 := v1.maskedWord_testBit hi1 (i / W) (i % W) hik (Nat.mod_lt i W_pos)
    have e2 := v2.maskedWord_testBit hi2 (i / W) (i % W) hik2 (Nat.mod_lt i W_pos)
    rw [hi'] at e1 e2
    rw [if_pos hi] at e1
    rw [if_pos (hn ▸ hi)] at e2
    rw [← e1, ← e2, hmw _ hmin]
  · rintro ⟨hn, hget⟩
    refine ⟨hn, fun k hk => ?_⟩
    have hk1 : k < v1.storage.length := lt_of_lt_of_le hk (min_le_left _ _)
    have hk2 : k < v2.storage.length := lt_of_lt_of_le hk (min_le_right _ _)
    apply Nat.eq_of_testBit_eq
    intro j
    by_cases hj : j < W
    · rw [v1.maskedWord_testBit hi1 k j hk1 hj,
        v2.maskedWord_testBit hi2 k j hk2 hj, ← hn]
      by_cases hc : k * W + j < v1.nbits
      · rw [if_pos hc, if_pos hc]
        exact hget _ hc
      · rw [if_neg hc, if_neg hc]
    · rw [v1.maskedWord_testBit_high hw1 k j hk1 (Nat.le_of_not_lt hj),
        v2.maskedWord_testBit_high hw2 k j hk2 (Nat.le_of_not_lt hj)]

/-- Witness for claim C6's theorem: the one-bit vectors backed by words
`1` and `3` differ only in a don't-care bit, and are equal. -/
theorem claim_C6_witness : (⟨[1], 1⟩ : Bitv).beq ⟨[3], 1⟩ = true :=
  (claim_C6_partial_eq ⟨[1], 1⟩ ⟨[3], 1⟩ (by decide) (by decide) (by decide)
    (by decide)).mpr ⟨rfl, by decide⟩

/-! ## Claim C8: the byte round trip -/

theorem Bitv.get_set_ne (bv : Bitv) (i j : Nat) (x : Bool) (hij : i ≠ j) :
    (bv.set j x).get i = bv.get i := by
  by_cases hw : j / W < bv.storage.length
  · rw [Bitv.get_set bv i j x hw, if_neg hij]
  · show (Bitv.get ⟨bv.storage.set (j / W) _, bv.nbits⟩ i) = bv.get i
    rw [List.set_eq_of_length_le (Nat.le_of_not_lt hw)]

theorem foldl_setbits_nbits (f : Nat → Bool) : ∀ (l : List Nat) (bv : Bitv),
    (l.foldl (fun bv j => bv.set j (f j)) bv).nbits = bv.nbits
  | [], _ => rfl
  | j :: l, bv => by
    rw [List.foldl_cons, foldl_setbits_nbits f l, Bitv.set_nbits]

theorem foldl_setbits_length (f : Nat → Bool) : ∀ (l : List Nat) (bv : Bitv),
    (l.foldl (fun bv j => bv.set j (f j)) bv).storage.length = bv.storage.length
  | [], _ => rfl
  | j :: l, bv => by
    rw [List.foldl_cons, foldl_setbits_length f l, Bitv.set_length]

theorem foldl_setbits_get (f : Nat → Bool) : ∀ (l : List Nat) (bv : Bitv) (i : Nat),
    i ∉ l → (l.foldl (fun bv j => bv.set j (f j)) bv).get i = bv.get i
  | [], _, _, _ => rfl
  | j :: l, bv, i, h => by
    rw [List.foldl_cons, foldl_setbits_get f l _ i (fun hc => h (List.mem_cons_of_mem _ hc)),
      Bitv.get_set_ne bv i j (f j) (fun hc => h (hc ▸ List.mem_cons_self _ _))]

theorem Bitv.new_get (n : Nat) (i : Nat) : (Bitv.new n false).get i = false := by
  rw [Bitv.get_eq_testBit]
  show ((List.replicate _ (if false then allOnes else 0)).getD (i / W) 0).testBit (i % W)
    = false
  simp only [if_neg (Bool.false_ne_true)]
  rw [getD_replicate_zero, Nat.zero_testBit]

theorem from_fn_nbits (len : Nat) (f : Nat → Bool) : (from_fn len f).nbits = len := by
  unfold from_fn
  rw [foldl_setbits_nbits]
  rfl

theorem from_fn_get (len : Nat) (f : Nat → Bool) (i : Nat) :
    (from_fn len f).get i = if i < len then f i else false := by
  have hW := W_pos
  unfold from_fn
  by_cases hi : i < len
  · rw [if_pos hi]
    have h1 := List.range'_append 0 i (len - i) 1
    simp only [Nat.one_mul, Nat.zero_add] at h1
    have h2 : List.range len = List.range' 0 i ++ List.range' i (len - i) := by
      rw [List.range_eq_range', h1]
      congr 1
      omega
    obtain ⟨d, hd⟩ : ∃ d, len - i = d + 1 := ⟨len - i - 1, by omega⟩
    have h3 : List.range' i (len - i) = i :: List.range' (i + 1) d := by
      rw [hd, List.range'_succ]
    rw [h2, h3, List.foldl_append, List.foldl_cons]
    rw [foldl_setbits_get f _ _ i
      (fun hc => by
        rw [List.mem_range'_1] at hc
        omega)]
    have hlen : (List.foldl (fun bv j => bv.set j (f j)) (Bitv.new len false)
        (List.range' 0 i)).storage.length = (len + W - 1) / W := by
      rw [foldl_setbits_length]
      show (List.replicate ((len + W - 1) / W) _).length = _
      rw [List.length_replicate]
    rw [Bitv.get_set _ i i (f i)
      (by
        rw [hlen, Nat.div_lt_iff_lt_mul W_pos]
        have h4 := le_ceil_mul len
        omega)]
    rw [if_pos rfl]
  · rw [if_neg hi]
    rw [foldl_setbits_get f _ _ i (fun hc => hi (List.mem_range.mp hc))]
    exact Bitv.new_get len i

theorem shiftRight_and_one (x t : Nat) :
    decide ((x >>> t) &&& 1 = 1) = x.testBit t := by
  rw [Nat.and_one_is_mod]
  have h1 : (x >>> t).testBit 0 = x.testBit t := by
    rw [Nat.testBit_shiftRight, Nat.add_zero]
  rw [← h1, Nat.testBit_zero]

theorem getD_map_range {α : Type} (n j : Nat) (f : Nat → α) (d : α) (hj : j < n) :
    ((List.range n).map f).getD j d = f j := by
  rw [List.getD_eq_getElem?_getD, List.getElem?_map]
  rw [List.getElem?_eq_getElem (by simpa using hj)]
  simp

theorem testBit_le_one (x t : Nat) (hx : x ≤ 1) :
    x.testBit t = (decide (t = 0) && decide (x = 1)) := by
  match t with
  | 0 =>
    interval_cases x <;> decide
  | t + 1 =>
    have h2 : x < 2 ^ (t + 1) :=
      Nat.lt_of_le_of_lt hx (Nat.one_lt_two_pow_iff.mpr (by omega))
    rw [Nat.testBit_lt_two_pow h2]
    simp

theorem ite_shift (c : Prop) [Decidable c] (v s : Nat) :
    (if c then 0 else v <<< s) = (if c then 0 else v) <<< s := by
  split
  · rw [Nat.zero_shiftLeft]
  · rfl

theorem byte_testBit (x0 x1 x2 x3 x4 x5 x6 x7 r : Nat)
    (h0 : x0 ≤ 1) (h1 : x1 ≤ 1) (h2 : x2 ≤ 1) (h3 : x3 ≤ 1)
    (h4 : x4 ≤ 1) (h5 : x5 ≤ 1) (h6 : x6 ≤ 1) (h7 : x7 ≤ 1) (hr : r < 8) :
    (x0 <<< (7 - 0) ||| x1 <<< (7 - 1) ||| x2 <<< (7 - 2) ||| x3 <<< (7 - 3) |||
      x4 <<< (7 - 4) ||| x5 <<< (7 - 5) ||| x6 <<< (7 - 6) ||| x7 <<< (7 - 7)).testBit (7 - r)
      = decide ([x0, x1, x2, x3, x4, x5, x6, x7].getD r 0 = 1) := by
  have e0 := fun t => testBit_le_one x0 t h0
  have e1 := fun t => testBit_le_one x1 t h1
  have e2 := fun t => testBit_le_one x2 t h2
  have e3 := fun t => testBit_le_one x3 t h3
  have e4 := fun t => testBit_le_one x4 t h4
  have e5 := fun t => testBit_le_one x5 t h5
  have e6 := fun t => testBit_le_one x6 t h6
  have e7 := fun t => testBit_le_one x7 t h7
  interval_cases r <;>
    simp [Nat.testBit_lor, Nat.testBit_shiftLeft, e0, e1, e2, e3, e4, e5, e6, e7] <;>
    omega

theorem ite_bit_le_one (c g : Prop) [Decidable c] [Decidable g] :
    (if c then 0 else if g then (1 : Nat) else 0) ≤ 1 := by
  split
  · decide
  · split <;> decide

theorem decide_pad_bit (v : Bitv) (i : Nat) :
    decide ((if i ≥ v.nbits then 0 else if v.get i then (1 : Nat) else 0) = 1)
      = if i < v.nbits then v.get i else false := by
  by_cases hin : i < v.nbits
  · rw [if_neg (by omega), if_pos hin]
    cases hg : v.get i <;> simp
  · rw [if_pos (by omega), if_neg hin]
    simp

theorem getD_eight (F : Nat → Nat) (q r : Nat) (hr : r < 8) :
    [F (q * 8 + 0), F (q * 8 + 1), F (q * 8 + 2), F (q * 8 + 3),
      F (q * 8 + 4), F (q * 8 + 5), F (q * 8 + 6), F (q * 8 + 7)].getD r 0
      = F (q * 8 + r) := by
  interval_cases r <;> rfl

/-- Claim C8 (confirmed).  `from_bytes(to_bytes(v))` has length
`ceil(v.nbits/8) * 8`, reproduces every bit of `v` below `v.nbits`, and
the pad bits from `v.nbits` up to the padded length are all `0`.  When
`v.nbits` is a multiple of 8 the padded length equals `v.nbits`, so the
round trip is exact. -/
theorem claim_C8_bytes_roundtrip (v : Bitv) :
    (from_bytes v.to_bytes).nbits = (v.nbits + 7) / 8 * 8 ∧
    (∀ i, i < v.nbits → (from_bytes v.to_bytes).get i = v.get i) ∧
    (∀ i, v.nbits ≤ i → i < (from_bytes v.to_bytes).nbits →
      (from_bytes v.to_bytes).get i = false) := by
  have hblen : v.to_bytes.length = (v.nbits + 7) / 8 := by
    unfold Bitv.to_bytes
    simp only [List.length_map, List.length_range]
    by_cases h : v.nbits % 8 = 0 <;> simp [h] <;> omega
  have hnb : (from_bytes v.to_bytes).nbits = v.to_bytes.length * 8 := by
    unfold from_bytes
    rw [from_fn_nbits]
  have hbit : ∀ i, i < v.to_bytes.length * 8 →
      (from_bytes v.to_bytes).get i = if i < v.nbits then v.get i else false := by
    intro i hi
    have hr8 : i % 8 < 8 := by omega
    show (from_fn (v.to_bytes.length * 8) _).get i = _
    rw [from_fn_get, if_pos hi, shiftRight_and_one]
    have hjb : i / 8 < v.to_bytes.length := by omega
    rw [hblen] at hjb
    simp only [Bitv.to_bytes]
    rw [getD_map_range _ _ _ _ (by
      by_cases h : v.nbits % 8 = 0 <;> simp [h] <;> omega)]
    simp only [ite_shift]
    rw [byte_testBit _ _ _ _ _ _ _ _ _ (ite_bit_le_one _ _) (ite_bit_le_one _ _)
      (ite_bit_le_one _ _) (ite_bit_le_one _ _) (ite_bit_le_one _ _)
      (ite_bit_le_one _ _) (ite_bit_le_one _ _) (ite_bit_le_one _ _) hr8]
    simp only [getD_eight
      (fun o => if o ≥ v.nbits then 0 else if v.get o then (1 : Nat) else 0)
      (i / 8) (i % 8) hr8]
    rw [show i / 8 * 8 + i % 8 = i from by omega]
    exact decide_pad_bit v i
  refine ⟨by rw [hnb, hblen], fun i hi => ?_, fun i hi1 hi2 => ?_⟩
  · have hi' : i < v.to_bytes.length * 8 := by
      have h2 : v.nbits ≤ (v.nbits + 7) / 8 * 8 := by omega
      omega
    rw [hbit i hi', if_pos hi]
  · rw [hnb] at hi2
    rw [hbit i hi2, if_neg (by omega)]

/-- Witness for claim C8's theorem on the three-bit vector `101`: bit 1
survives the byte round trip and pad bit 4 reads zero. -/
theorem claim_C8_witness :
    (from_bytes (from_bools [true, false, true]).to_bytes).get 1
        = (from_bools [true, false, true]).get 1 ∧
    (from_bytes (from_bools [true, false, true]).to_bytes).get 4 = false :=
  ⟨(claim_C8_bytes_roundtrip (from_bools [true, false, true])).2.1 1 (by decide),
    (claim_C8_bytes_roundtrip (from_bools [true, false, true])).2.2 4 (by decide)
      (by decide)⟩

/-! ## Claim C7: the enumeration visitors -/

theorem filterMap_ite {α : Type} (q : Nat → Prop) [DecidablePred q] (g : Nat → α) :
    ∀ l : List Nat,
      l.filterMap (fun i => if q i then some (g i) else Option.none)
        = (l.filter (fun i => decide (q i))).map g
  | [] => rfl
  | x :: xs => by
    by_cases h : q x <;>
      simp [List.filterMap_cons, List.filter_cons, h, filterMap_ite q g xs]

theorem wordBits_eq (base bits : Nat) :
    wordBits base bits
      = ((List.range W).filter (fun i => bits.testBit i)).map (fun i => base + i) := by
  unfold wordBits
  rw [filterMap_ite]
  congr 1
  refine List.filter_congr fun i _ => ?_
  exact land_shift_ne_zero bits i

theorem visitSeq_append (p : Nat → Bool) : ∀ (xs ys : List Nat),
    visitSeq p (xs ++ ys)
      = if (visitSeq p xs).1 then
          ((visitSeq p ys).1, (visitSeq p xs).2 ++ (visitSeq p ys).2)
        else (false, (visitSeq p xs).2)
  | [], ys => by simp [visitSeq]
  | x :: xs, ys => by
    by_cases hx : p x = true <;>
      simp [visitSeq, hx, visitSeq_append p xs ys] <;>
      split <;> simp

theorem iterate_bits_eq (base bits : Nat) (p : Nat → Bool) :
    iterate_bits base bits p = visitSeq p (wordBits base bits) := by
  unfold iterate_bits
  by_cases h : bits = 0
  · rw [if_pos h, h]
    have : wordBits base 0 = [] := by
      rw [wordBits_eq]
      simp [Nat.zero_testBit]
    rw [this]
    rfl
  · rw [if_neg h]

theorem visitWords_eq (p : Nat → Bool) : ∀ l : List (Nat × Nat),
    visitWords p l = visitSeq p (l.flatMap (fun bw => wordBits bw.1 bw.2))
  | [] => rfl
  | bw :: rest => by
    rw [List.flatMap_cons, visitSeq_append]
    unfold visitWords
    rw [iterate_bits_eq, visitWords_eq p rest]

theorem visitWords_append (p : Nat → Bool) (l1 l2 : List (Nat × Nat)) :
    visitWords p (l1 ++ l2)
      = if (visitWords p l1).1 then
          ((visitWords p l2).1, (visitWords p l1).2 ++ (visitWords p l2).2)
        else (false, (visitWords p l1).2) := by
  rw [visitWords_eq, visitWords_eq, visitWords_eq, List.flatMap_append, visitSeq_append]

theorem flatMap_wordBits (f : Nat → Nat) : ∀ (n s : Nat),
    (List.range' s n).flatMap (fun k => wordBits (k * W) (f k))
      = (List.range' (s * W) (n * W)).filter (fun v => (f (v / W)).testBit (v % W))
  | 0, s => rfl
  | n + 1, s => by
    have hW := W_pos
    rw [List.range'_succ, List.flatMap_cons]
    rw [show (n + 1) * W = n * W + W from Nat.succ_mul n W]
    rw [show List.range' (s * W) (n * W + W)
        = List.range' (s * W) W ++ List.range' (s * W + 1 * W) (n * W) from
      (List.range'_append (s * W) W (n * W) 1).symm]
    rw [List.filter_append]
    congr 1
    · rw [List.range'_eq_map_range, List.filter_map, wordBits_eq]
      congr 1
      refine List.filter_congr fun i hi => ?_
      rw [List.mem_range] at hi
      have hdiv : (s * W + i) / W = s := by
        rw [Nat.mul_comm s W, Nat.mul_add_div W_pos, Nat.div_eq_of_lt hi]
        omega
      have hmod : (s * W + i) % W = i := by
        rw [Nat.mul_comm s W, Nat.mul_add_mod, Nat.mod_eq_of_lt hi]
      show (f s).testBit i = (f ((s * W + i) / W)).testBit ((s * W + i) % W)
      rw [hdiv, hmod]
    · rw [show s * W + 1 * W = (s + 1) * W from by
        rw [Nat.one_mul, Nat.succ_mul]]
      exact flatMap_wordBits f n (s + 1)

theorem BitvSet.contains_ge_cap (s : BitvSet) (v : Nat) (h : s.capacity ≤ v) :
    s.contains v = false := by
  cases hc : s.contains v
  · rfl
  · exact absurd (s.contains_lt_capacity v hc) (Nat.not_lt.mpr h)

/-- For a clean set whose length fits its capacity, bit `j` of masked
word `k` is exactly membership of `k * W + j`. -/
theorem BitvSet.maskedWord_contains (s : BitvSet) (hc : s.Clean) (hsp : s.CapInv)
    (k j : Nat) (hk : k < s.bitv.storage.length) (hj : j < W) :
    (s.bitv.maskedWord k).testBit j = s.contains (k * W + j) := by
  have hW := W_pos
  have hvcap : k * W + j < s.capacity := by
    have h1 : (k + 1) * W ≤ s.bitv.storage.length * W := Nat.mul_le_mul_right W hk
    rw [Nat.succ_mul] at h1
    show k * W + j < s.bitv.storage.length * W
    omega
  have hclean : s.bitv.nbits ≤ k * W + j →
      (s.bitv.storage.getD ((k * W + j) / W) 0).testBit ((k * W + j) % W) = false :=
    fun h => hc _ hvcap h
  have hdiv : (k * W + j) / W = k := by
    rw [Nat.mul_comm k W, Nat.mul_add_div W_pos, Nat.div_eq_of_lt hj]
    omega
  have hmod : (k * W + j) % W = j := by
    rw [Nat.mul_comm k W, Nat.mul_add_mod, Nat.mod_eq_of_lt hj]
  rw [hdiv, hmod] at hclean
  rw [BitvSet.contains_testBit, hdiv, hmod]
  unfold Bitv.maskedWord Bitv.lastWordMask
  by_cases hlt : k * W + j < s.bitv.nbits
  · have hraw : decide (k * W + j < s.bitv.nbits) = true := by simp [hlt]
    rw [hraw, Bool.true_and]
    by_cases hlast : k + 1 = s.bitv.storage.length
    · rw [if_pos hlast]
      by_cases hrem : s.bitv.nbits % W > 0
      · rw [if_pos hrem, Nat.one_shiftLeft, and_mask_testBit]
        have hnkW : k * W ≤ s.bitv.nbits := by omega
        have hub : s.bitv.nbits ≤ (k + 1) * W := by
          have h2 : s.bitv.nbits ≤ s.capacity := hsp
          have h3 : s.capacity = s.bitv.storage.length * W := rfl
          rw [h3, ← hlast] at h2
          exact h2
        have hlt2 : s.bitv.nbits < (k + 1) * W := by
          rcases Nat.lt_or_ge s.bitv.nbits ((k + 1) * W) with h | h
          · exact h
          · have heq : s.bitv.nbits = (k + 1) * W := by omega
            have hz : s.bitv.nbits % W = 0 := by
              rw [heq]
              exact Nat.mul_mod_left (k + 1) W
            omega
        have hq : s.bitv.nbits / W = k := Nat.div_eq_of_lt_le hnkW hlt2
        have h2 := Nat.div_add_mod s.bitv.nbits W
        rw [hq, Nat.mul_comm W k] at h2
        have hjr : j < s.bitv.nbits % W := by omega
        simp [hjr]
      · rw [if_neg hrem, allOnes_eq, and_mask_testBit]
        simp [hj]
    · rw [if_neg hlast]
  · have hraw : decide (k * W + j < s.bitv.nbits) = false := by simp [hlt]
    rw [hraw, Bool.false_and]
    have hz := hclean (Nat.le_of_not_lt hlt)
    by_cases hlast : k + 1 = s.bitv.storage.length
    · rw [if_pos hlast, Nat.testBit_land, hz, Bool.false_and]
    · rw [if_neg hlast, hz]

/-! ## Enumeration traces: `commons` and `outliers` in closed form -/

theorem BitvSet.commons_eq (a b : BitvSet) :
    a.commons b
      = (List.range (min a.bitv.storage.length b.bitv.storage.length)).map
          (fun k => (k * W, a.bitv.maskedWord k, b.bitv.maskedWord k)) := by
  unfold BitvSet.commons
  rw [Bitv.mask_words_zero, Bitv.mask_words_zero, zip_map_range, List.map_map]
  rfl

theorem BitvSet.cap_div_W (s : BitvSet) : s.capacity / W = s.bitv.storage.length :=
  Nat.mul_div_cancel _ W_pos

theorem BitvSet.outliers_eq_lt (a b : BitvSet)
    (h : b.bitv.storage.length < a.bitv.storage.length) :
    a.outliers b
      = (List.range (a.bitv.storage.length - b.bitv.storage.length)).map
          (fun j => (true, (b.bitv.storage.length + j) * W,
            a.bitv.maskedWord (b.bitv.storage.length + j))) := by
  simp only [BitvSet.outliers, BitvSet.cap_div_W]
  rw [if_pos h, Bitv.mask_words_start a.bitv b.bitv.storage.length (Nat.le_of_lt h),
    List.map_map]
  rfl

theorem BitvSet.outliers_eq_ge (a b : BitvSet)
    (h : a.bitv.storage.length ≤ b.bitv.storage.length) :
    a.outliers b
      = (List.range (b.bitv.storage.length - a.bitv.storage.length)).map
          (fun j => (false, (a.bitv.storage.length + j) * W,
            b.bitv.maskedWord (a.bitv.storage.length + j))) := by
  simp only [BitvSet.outliers, BitvSet.cap_div_W]
  rw [if_neg (Nat.not_lt.mpr h), Bitv.mask_words_start b.bitv a.bitv.storage.length h,
    List.map_map]
  rfl

theorem BitvSet.outliers_pairs_lt (a b : BitvSet)
    (h : b.bitv.storage.length < a.bitv.storage.length) :
    (a.outliers b).map (fun x => (x.2.1, x.2.2))
      = (List.range (a.bitv.storage.length - b.bitv.storage.length)).map
          (fun j => ((b.bitv.storage.length + j) * W,
            a.bitv.maskedWord (b.bitv.storage.length + j))) := by
  rw [BitvSet.outliers_eq_lt a b h, List.map_map]
  rfl

theorem BitvSet.outliers_pairs_ge (a b : BitvSet)
    (h : a.bitv.storage.length ≤ b.bitv.storage.length) :
    (a.outliers b).map (fun x => (x.2.1, x.2.2))
      = (List.range (b.bitv.storage.length - a.bitv.storage.length)).map
          (fun j => ((a.bitv.storage.length + j) * W,
            b.bitv.maskedWord (a.bitv.storage.length + j))) := by
  rw [BitvSet.outliers_eq_ge a b h, List.map_map]
  rfl

theorem BitvSet.outliers_diff_lt (a b : BitvSet)
    (h : b.bitv.storage.length < a.bitv.storage.length) :
    (a.outliers b).filterMap
        (fun x => if x.1 then some (x.2.1, x.2.2) else Option.none)
      = (List.range (a.bitv.storage.length - b.bitv.storage.length)).map
          (fun j => ((b.bitv.storage.length + j) * W,
            a.bitv.maskedWord (b.bitv.storage.length + j))) := by
  rw [BitvSet.outliers_eq_lt a b h, List.filterMap_map]
  rw [show ((fun x : Bool × Nat × Nat =>
        if x.1 then some (x.2.1, x.2.2) else Option.none) ∘
      (fun j : Nat => ((true : Bool), (b.bitv.storage.length + j) * W,
        a.bitv.maskedWord (b.bitv.storage.length + j))))
    = (some ∘ fun j : Nat => ((b.bitv.storage.length + j) * W,
        a.bitv.maskedWord (b.bitv.storage.length + j))) from rfl]
  rw [List.filterMap_eq_map]

theorem BitvSet.outliers_diff_ge (a b : BitvSet)
    (h : a.bitv.storage.length ≤ b.bitv.storage.length) :
    (a.outliers b).filterMap
        (fun x => if x.1 then some (x.2.1, x.2.2) else Option.none) = [] := by
  rw [BitvSet.outliers_eq_ge a b h, List.filterMap_map]
  rw [show ((fun x : Bool × Nat × Nat =>
        if x.1 then some (x.2.1, x.2.2) else Option.none) ∘
      (fun j : Nat => ((false : Bool), (a.bitv.storage.length + j) * W,
        b.bitv.maskedWord (a.bitv.storage.length + j))))
    = (fun j : Nat => (Option.none : Option (Nat × Nat))) from rfl]
  simp

/-- Flattened word bits of a run of masked words of a clean set: a
filter of `contains` over the covered value range. -/
theorem BitvSet.side_trace (s : BitvSet) (hC : s.Clean) (hS : s.CapInv) (s0 n : Nat)
    (hn : s0 + n ≤ s.bitv.storage.length) :
    ((List.range n).map
        (fun j => ((s0 + j) * W, s.bitv.maskedWord (s0 + j)))).flatMap
        (fun bw => wordBits bw.1 bw.2)
      = (List.range' (s0 * W) (n * W)).filter (fun v => s.contains v) := by
  have hW := W_pos
  have h3 := List.flatMap_map
      (fun j : Nat => ((s0 + j) * W, s.bitv.maskedWord (s0 + j)))
      (fun bw : Nat × Nat => wordBits bw.1 bw.2) (List.range n)
  have h1 := flatMap_wordBits (fun k => s.bitv.maskedWord k) n s0
  rw [List.range'_eq_map_range s0 n, List.flatMap_map] at h1
  have h2 : (List.range n).flatMap
      (fun j => wordBits ((s0 + j) * W) (s.bitv.maskedWord (s0 + j)))
      = (List.range' (s0 * W) (n * W)).filter
          (fun v => (s.bitv.maskedWord (v / W)).testBit (v % W)) := h1
  refine h3.trans (h2.trans ?_)
  refine List.filter_congr fun v hv => ?_
  rw [List.mem_range'_1] at hv
  have hvW : v < (s0 + n) * W := by
    rw [Nat.add_mul]
    omega
  have hk : v / W < s.bitv.storage.length := by
    have h4 : v / W < s0 + n := (Nat.div_lt_iff_lt_mul hW).mpr hvW
    omega
  have hj : v % W < W := Nat.mod_lt v hW
  have hv2 : v / W * W + v % W = v := by
    rw [Nat.mul_comm]
    exact Nat.div_add_mod v W
  show (s.bitv.maskedWord (v / W)).testBit (v % W) = s.contains v
  rw [BitvSet.maskedWord_contains s hC hS (v / W) (v % W) hk hj, hv2]

theorem min_len_mul (a b : BitvSet) :
    min a.bitv.storage.length b.bitv.storage.length * W
      = min a.capacity b.capacity := by
  rcases Nat.le_total a.bitv.storage.length b.bitv.storage.length with h | h
  · rw [min_eq_left h,
      min_eq_left (show a.capacity ≤ b.capacity from Nat.mul_le_mul_right W h)]
    rfl
  · rw [min_eq_right h,
      min_eq_right (show b.capacity ≤ a.capacity from Nat.mul_le_mul_right W h)]
    rfl

/-- Flattened word bits of `commons` combined with a word operation `g`
whose bitwise meaning is `q`: a filter over the shared capacity range. -/
theorem BitvSet.commons_trace (a b : BitvSet) (haC : a.Clean) (haS : a.CapInv)
    (hbC : b.Clean) (hbS : b.CapInv) (g : Nat → Nat → Nat) (q : Bool → Bool → Bool)
    (hg : ∀ x y j, j < W → (g x y).testBit j = q (x.testBit j) (y.testBit j)) :
    ((a.commons b).map (fun c => (c.1, g c.2.1 c.2.2))).flatMap
        (fun bw => wordBits bw.1 bw.2)
      = (List.range' 0 (min a.capacity b.capacity)).filter
          (fun v => q (a.contains v) (b.contains v)) := by
  have hW := W_pos
  rw [BitvSet.commons_eq, List.map_map, List.range_eq_range']
  have h3 := List.flatMap_map
      (fun k : Nat => (k * W, g (a.bitv.maskedWord k) (b.bitv.maskedWord k)))
      (fun bw : Nat × Nat => wordBits bw.1 bw.2)
      (List.range' 0 (min a.bitv.storage.length b.bitv.storage.length))
  have h1 := flatMap_wordBits
      (fun k => g (a.bitv.maskedWord k) (b.bitv.maskedWord k))
      (min a.bitv.storage.length b.bitv.storage.length) 0
  rw [show (0 : Nat) * W = 0 from Nat.zero_mul W] at h1
  have h2 : (List.range' 0 (min a.bitv.storage.length b.bitv.storage.length)).flatMap
      (fun k => wordBits (k * W) (g (a.bitv.maskedWord k) (b.bitv.maskedWord k)))
      = (List.range' 0 (min a.bitv.storage.length b.bitv.storage.length * W)).filter
          (fun v => (g (a.bitv.maskedWord (v / W))
            (b.bitv.maskedWord (v / W))).testBit (v % W)) := h1
  refine h3.trans (h2.trans ?_)
  rw [min_len_mul a b]
  refine List.filter_congr fun v hv => ?_
  rw [List.mem_range'_1] at hv
  have hva : v < a.capacity := by omega
  have hvb : v < b.capacity := by omega
  have hka : v / W < a.bitv.storage.length :=
    (Nat.div_lt_iff_lt_mul hW).mpr (show v < a.bitv.storage.length * W from hva)
  have hkb : v / W < b.bitv.storage.length :=
    (Nat.div_lt_iff_lt_mul hW).mpr (show v < b.bitv.storage.length * W from hvb)
  have hj : v % W < W := Nat.mod_lt v hW
  have hv2 : v / W * W + v % W = v := by
    rw [Nat.mul_comm]
    exact Nat.div_add_mod v W
  show (g (a.bitv.maskedWord (v / W)) (b.bitv.maskedWord (v / W))).testBit (v % W)
      = q (a.contains v) (b.contains v)
  rw [hg _ _ _ hj, BitvSet.maskedWord_contains a haC haS (v / W) (v % W) hka hj,
    BitvSet.maskedWord_contains b hbC hbS (v / W) (v % W) hkb hj, hv2]

/-- Flattened word bits of the `outliers` run for a combining predicate
`q` that is the identity against `false`: a filter over the excess
capacity range. -/
theorem BitvSet.outliers_trace (a b : BitvSet) (haC : a.Clean) (haS : a.CapInv)
    (hbC : b.Clean) (hbS : b.CapInv) (q : Bool → Bool → Bool)
    (hqf : ∀ x, q x false = x) (hfq : ∀ y, q false y = y) :
    ((a.outliers b).map (fun x => (x.2.1, x.2.2))).flatMap
        (fun bw => wordBits bw.1 bw.2)
      = (List.range' (min a.capacity b.capacity)
          (max a.capacity b.capacity - min a.capacity b.capacity)).filter
          (fun v => q (a.contains v) (b.contains v)) := by
  rcases Nat.lt_or_ge b.bitv.storage.length a.bitv.storage.length with h | h
  · rw [BitvSet.outliers_pairs_lt a b h,
      BitvSet.side_trace a haC haS b.bitv.storage.length
        (a.bitv.storage.length - b.bitv.storage.length) (by omega)]
    have hcap : b.capacity ≤ a.capacity := Nat.mul_le_mul_right W (Nat.le_of_lt h)
    rw [min_eq_right hcap, max_eq_left hcap]
    have hregion : b.bitv.storage.length * W = b.capacity := rfl
    have hn : (a.bitv.storage.length - b.bitv.storage.length) * W
        = a.capacity - b.capacity := by
      rw [Nat.sub_mul]
      rfl
    rw [hregion, hn]
    refine List.filter_congr fun v hv => ?_
    rw [List.mem_range'_1] at hv
    show a.contains v = q (a.contains v) (b.contains v)
    rw [BitvSet.contains_ge_cap b v hv.1, hqf]
  · rw [BitvSet.outliers_pairs_ge a b h,
      BitvSet.side_trace b hbC hbS a.bitv.storage.length
        (b.bitv.storage.length - a.bitv.storage.length) (by omega)]
    have hcap : a.capacity ≤ b.capacity := Nat.mul_le_mul_right W h
    rw [min_eq_left hcap, max_eq_right hcap]
    have hregion : a.bitv.storage.length * W = a.capacity := rfl
    have hn : (b.bitv.storage.length - a.bitv.storage.length) * W
        = b.capacity - a.capacity := by
      rw [Nat.sub_mul]
      rfl
    rw [hregion, hn]
    refine List.filter_congr fun v hv => ?_
    rw [List.mem_range'_1] at hv
    show b.contains v = q (a.contains v) (b.contains v)
    rw [BitvSet.contains_ge_cap a v hv.1, hfq]

/-- Flattened word bits of the `difference`-style `outliers` run (only
`self`-side words kept): a filter of `a \ b` membership over the excess
capacity range. -/
theorem BitvSet.outliers_trace_diff (a b : BitvSet) (haC : a.Clean) (haS : a.CapInv)
    (hbC : b.Clean) (hbS : b.CapInv) :
    ((a.outliers b).filterMap
        (fun x => if x.1 then some (x.2.1, x.2.2) else Option.none)).flatMap
        (fun bw => wordBits bw.1 bw.2)
      = (List.range' (min a.capacity b.capacity)
          (max a.capacity b.capacity - min a.capacity b.capacity)).filter
          (fun v => a.contains v && !b.contains v) := by
  rcases Nat.lt_or_ge b.bitv.storage.length a.bitv.storage.length with h | h
  · rw [BitvSet.outliers_diff_lt a b h,
      BitvSet.side_trace a haC haS b.bitv.storage.length
        (a.bitv.storage.length - b.bitv.storage.length) (by omega)]
    have hcap : b.capacity ≤ a.capacity := Nat.mul_le_mul_right W (Nat.le_of_lt h)
    rw [min_eq_right hcap, max_eq_left hcap]
    have hregion : b.bitv.storage.length * W = b.capacity := rfl
    have hn : (a.bitv.storage.length - b.bitv.storage.length) * W
        = a.capacity - b.capacity := by
      rw [Nat.sub_mul]
      rfl
    rw [hregion, hn]
    refine List.filter_congr fun v hv => ?_
    rw [List.mem_range'_1] at hv
    show a.contains v = (a.contains v && !b.contains v)
    rw [BitvSet.contains_ge_cap b v hv.1, Bool.not_false, Bool.and_true]
  · rw [BitvSet.outliers_diff_ge a b h]
    rw [show (([] : List (Nat × Nat)).flatMap (fun bw => wordBits bw.1 bw.2))
      = ([] : List Nat) from rfl]
    symm
    rw [List.filter_eq_nil_iff]
    intro v hv
    rw [List.mem_range'_1] at hv
    have hcap : a.capacity ≤ b.capacity := Nat.mul_le_mul_right W h
    have ha0 : a.contains v = false := BitvSet.contains_ge_cap a v (by omega)
    simp [ha0]

/-- The value range up to the larger capacity splits at the smaller one. -/
theorem range_max_split (a b : BitvSet) :
    List.range (max a.capacity b.capacity)
      = List.range' 0 (min a.capacity b.capacity)
        ++ List.range' (min a.capacity b.capacity)
            (max a.capacity b.capacity - min a.capacity b.capacity) := by
  rw [List.range_eq_range']
  have h1 := List.range'_append 0 (min a.capacity b.capacity)
      (max a.capacity b.capacity - min a.capacity b.capacity) 1
  rw [show 0 + 1 * min a.capacity b.capacity = min a.capacity b.capacity from by
    omega] at h1
  rw [h1]
  congr 1
  omega

/-- `intersection` visits exactly the common members, ascending, with
early termination. -/
theorem BitvSet.intersection_trace (a b : BitvSet) (haC : a.Clean) (haS : a.CapInv)
    (hbC : b.Clean) (hbS : b.CapInv) (p : Nat → Bool) :
    a.intersection b p
      = visitSeq p ((List.range (max a.capacity b.capacity)).filter
          (fun v => a.contains v && b.contains v)) := by
  unfold BitvSet.intersection
  rw [visitWords_eq]
  have hc := BitvSet.commons_trace a b haC haS hbC hbS
      (fun x y => x &&& y) (fun x y => x && y)
      (fun x y j _ => Nat.testBit_land x y j)
  have hc2 : ((a.commons b).map (fun c => (c.1, c.2.1 &&& c.2.2))).flatMap
      (fun bw => wordBits bw.1 bw.2)
      = (List.range' 0 (min a.capacity b.capacity)).filter
          (fun v => a.contains v && b.contains v) := hc
  rw [hc2]
  congr 1
  rw [range_max_split a b, List.filter_append]
  have h0 : (List.range' (min a.capacity b.capacity)
      (max a.capacity b.capacity - min a.capacity b.capacity)).filter
      (fun v => a.contains v && b.contains v) = [] := by
    rw [List.filter_eq_nil_iff]
    intro v hv
    rw [List.mem_range'_1] at hv
    rcases Nat.le_total a.capacity b.capacity with h | h
    · have h5 : a.contains v = false := BitvSet.contains_ge_cap a v (by omega)
      simp [h5]
    · have h5 : b.contains v = false := BitvSet.contains_ge_cap b v (by omega)
      simp [h5]
  rw [h0, List.append_nil]

/-- `union` visits exactly the members of either set, ascending, with
early termination. -/
theorem BitvSet.union_trace (a b : BitvSet) (haC : a.Clean) (haS : a.CapInv)
    (hbC : b.Clean) (hbS : b.CapInv) (p : Nat → Bool) :
    a.union b p
      = visitSeq p ((List.range (max a.capacity b.capacity)).filter
          (fun v => a.contains v || b.contains v)) := by
  simp only [BitvSet.union]
  rw [← visitWords_append, visitWords_eq, List.flatMap_append]
  have hc := BitvSet.commons_trace a b haC haS hbC hbS
      (fun x y => x ||| y) (fun x y => x || y)
      (fun x y j _ => Nat.testBit_lor x y j)
  have hc2 : ((a.commons b).map (fun c => (c.1, c.2.1 ||| c.2.2))).flatMap
      (fun bw => wordBits bw.1 bw.2)
      = (List.range' 0 (min a.capacity b.capacity)).filter
          (fun v => a.contains v || b.contains v) := hc
  have ho := BitvSet.outliers_trace a b haC haS hbC hbS
      (fun x y => x || y) Bool.or_false Bool.false_or
  have ho2 : ((a.outliers b).map (fun x => (x.2.1, x.2.2))).flatMap
      (fun bw => wordBits bw.1 bw.2)
      = (List.range' (min a.capacity b.capacity)
          (max a.capacity b.capacity - min a.capacity b.capacity)).filter
          (fun v => a.contains v || b.contains v) := ho
  rw [hc2, ho2, ← List.filter_append, ← range_max_split a b]

/-- `symmetric_difference` visits exactly the members of one set but
not the other, ascending, with early termination. -/
theorem BitvSet.symmetric_difference_trace (a b : BitvSet) (haC : a.Clean)
    (haS : a.CapInv) (hbC : b.Clean) (hbS : b.CapInv) (p : Nat → Bool) :
    a.symmetric_difference b p
      = visitSeq p ((List.range (max a.capacity b.capacity)).filter
          (fun v => a.contains v ^^ b.contains v)) := by
  simp only [BitvSet.symmetric_difference]
  rw [← visitWords_append, visitWords_eq, List.flatMap_append]
  have hc := BitvSet.commons_trace a b haC haS hbC hbS
      (fun x y => x ^^^ y) (fun x y => x ^^ y)
      (fun x y j _ => Nat.testBit_xor x y j)
  have hc2 : ((a.commons b).map (fun c => (c.1, c.2.1 ^^^ c.2.2))).flatMap
      (fun bw => wordBits bw.1 bw.2)
      = (List.range' 0 (min a.capacity b.capacity)).filter
          (fun v => a.contains v ^^ b.contains v) := hc
  have ho := BitvSet.outliers_trace a b haC haS hbC hbS
      (fun x y => x ^^ y) Bool.xor_false Bool.false_xor
  have ho2 : ((a.outliers b).map (fun x => (x.2.1, x.2.2))).flatMap
      (fun bw => wordBits bw.1 bw.2)
      = (List.range' (min a.capacity b.capacity)
          (max a.capacity b.capacity - min a.capacity b.capacity)).filter
          (fun v => a.contains v ^^ b.contains v) := ho
  rw [hc2, ho2, ← List.filter_append, ← range_max_split a b]

/-- `difference` visits exactly the members of `a` absent from `b`,
ascending, with early termination. -/
theorem BitvSet.difference_trace (a b : BitvSet) (haC : a.Clean) (haS : a.CapInv)
    (hbC : b.Clean) (hbS : b.CapInv) (p : Nat → Bool) :
    a.difference b p
      = visitSeq p ((List.range (max a.capacity b.capacity)).filter
          (fun v => a.contains v && !b.contains v)) := by
  simp only [BitvSet.difference]
  rw [← visitWords_append, visitWords_eq, List.flatMap_append]
  have hc := BitvSet.commons_trace a b haC haS hbC hbS
      (fun x y => x &&& complW y) (fun x y => x && !y)
      (fun x y j hj => by
        show (x &&& complW y).testBit j = (x.testBit j && !y.testBit j)
        rw [Nat.testBit_land, complW_testBit y j hj])
  have hc2 : ((a.commons b).map (fun c => (c.1, c.2.1 &&& complW c.2.2))).flatMap
      (fun bw => wordBits bw.1 bw.2)
      = (List.range' 0 (min a.capacity b.capacity)).filter
          (fun v => a.contains v && !b.contains v) := hc
  have ho := BitvSet.outliers_trace_diff a b haC haS hbC hbS
  rw [hc2, ho, ← List.filter_append, ← range_max_split a b]

/-- C7: for operand sets that are clean (no stored bit at or beyond the
nominal length) and whose nominal length fits their capacity, each
non-mutating enumeration (`intersection`, `union`, `difference`,
`symmetric_difference`) visits exactly the members of the resulting set
in strictly ascending order -- it behaves as the sequential visit of the
ascending list of values below the larger capacity satisfying the
corresponding membership predicate, returning `false` as soon as the
visitor rejects a value and `true` on exhaustion; concretely,
`A = {11,1,3,77,103,5}` and `B = {2,11,77,5,3}` give the intersection
visit sequence `[3, 5, 11, 77]`.  (Without the cleanliness proviso the
enumerations can visit stale non-members, so the claim is corrected by
the hypotheses `Clean`/`CapInv`.) -/
theorem claim_C7_enumerations (a b : BitvSet) (haC : a.Clean) (haS : a.CapInv)
    (hbC : b.Clean) (hbS : b.CapInv) :
    (∀ p : Nat → Bool, a.intersection b p
        = visitSeq p ((List.range (max a.capacity b.capacity)).filter
            (fun v => a.contains v && b.contains v)))
    ∧ (∀ p : Nat → Bool, a.union b p
        = visitSeq p ((List.range (max a.capacity b.capacity)).filter
            (fun v => a.contains v || b.contains v)))
    ∧ (∀ p : Nat → Bool, a.difference b p
        = visitSeq p ((List.range (max a.capacity b.capacity)).filter
            (fun v => a.contains v && !b.contains v)))
    ∧ (∀ p : Nat → Bool, a.symmetric_difference b p
        = visitSeq p ((List.range (max a.capacity b.capacity)).filter
            (fun v => a.contains v ^^ b.contains v)))
    ∧ setAex.intersection setBex (fun _ => true) = (true, [3, 5, 11, 77]) :=
  ⟨fun p => BitvSet.intersection_trace a b haC haS hbC hbS p,
   fun p => BitvSet.union_trace a b haC haS hbC hbS p,
   fun p => BitvSet.difference_trace a b haC haS hbC hbS p,
   fun p => BitvSet.symmetric_difference_trace a b haC haS hbC hbS p,
   by decide⟩

/-- A dirty set (stale stored bit beyond the nominal length, produced
by `union_with` on a fresh empty set) makes `intersection` visit a
value that is a member of neither operand: the original claim fails
without the cleanliness hypothesis. -/
theorem claim_C7_counterexample :
    setDirty.intersection setFive (fun _ => true) = (true, [5])
    ∧ setDirty.contains 5 = false
    ∧ ¬ setDirty.Clean := by
  refine ⟨by decide, by decide, by decide⟩

theorem claim_C7_witness :
    setAex.Clean ∧ setAex.CapInv ∧ setBex.Clean ∧ setBex.CapInv
    ∧ setAex.intersection setBex (fun _ => true) = (true, [3, 5, 11, 77]) :=
  ⟨by decide, by decide, by decide, by decide,
    (claim_C7_enumerations setAex setBex (by decide) (by decide) (by decide)
      (by decide)).2.2.2.2⟩
